import Mathlib

/-!
# Marching squares with a fixed pool of workers (`tema1_par.c`)

A shallow embedding of `src/Andreea_Spinochi_332CA/tema1_par.c`, followed by
the properties of its job partitions, of its rescaling, sampling and marching
phases, of its initialisation and of its command line.

Conventions of the embedding.

* The C `int`s that hold dimensions, loop counters, worker ids and worker
  counts are natural numbers: every such value is non-negative in the
  program.  For a working bitmap of at most 2048 lines the products
  `thread_id * p` stay below `2^31` (`range_no_overflow`).  Pixel indices are
  integers, so that `x - 1` at lines 96 and 107 is the C value also for
  `x = 0`.  Where C would divide by zero (a step of 0, a pool of 0 workers)
  the division of the model gives 0; the program has steps of `STEP = 8` and
  runs a worker only when `no_threads ≥ 1`.
* A buffer is a total map from its index to its content
  (`Int → ppm_pixel` for `data[...]`, `Nat × Nat → Nat` for `grid[i][j]`):
  an index outside a buffer names the memory next to it.  What `malloc`
  handed out is kept in ghost fields of the shared record.
* `scaled_image` is a pointer: it names either the source bitmap or the
  bitmap allocated at line 235, and the working bitmap is read and written
  through it.
* Conversions to `unsigned char` are written `% 256`.
* The barriers only order the phases.  A phase is the workers running one
  after the other in some order; `sample_phase_interleaved` and
  `march_phase_interleaved` extend this to any interleaving of their stores.
* What lies outside the file is a parameter: the reader `read_ppm` and
  `sample_bicubic` of `helpers.c`, the outcome of every `malloc`, and the
  content of fresh memory.  `atoi` follows the C library.
* `main` returns what can be seen from outside.  For a worker count of 0 or
  less the barrier is never initialised, and whether `pthread_barrier_destroy`
  then returns is a parameter too.  The status is `none` when the run does
  not reach `return 0`.
-/

namespace Tema1Par

/-! ## Memory -/

/-- Store `v` at key `k` of a buffer. -/
def mem_set {α β : Type} [DecidableEq α] (m : α → β) (k : α) (v : β) : α → β :=
  fun k' => if k' = k then v else m k'

/-- Perform a sequence of stores, first to last. -/
def apply_writes {α β : Type} [DecidableEq α] (m : α → β) (ws : List (α × β)) : α → β :=
  ws.foldl (fun m w => mem_set m w.1 w.2) m

/-! ## Data model -/

/-- Modelled from the spec: the pixel type of `helpers.h` (three unsigned
8-bit channels `red`, `green`, `blue`). -/
structure ppm_pixel where
  red : Fin 256
  green : Fin 256
  blue : Fin 256
deriving DecidableEq

/-- Modelled from the spec: the bitmap type of `helpers.h`, with the fields
`x`, `y` and `data` the source uses; pixel `(r, c)` is `data[r * y + c]`. -/
structure ppm_image where
  x : Nat
  y : Nat
  data : Int → ppm_pixel

/-- The two bitmap objects `scaled_image` can point to: the source bitmap
`image`, or the bitmap allocated at line 235 (`new_image`). -/
inductive image_ptr where
  | to_image
  | to_new_image
deriving DecidableEq

/-- The shared record `data` (lines 20-28).  `new_image` is the object
allocated at line 235.  `grid_alloc` and `new_image_alloc` are ghost fields:
the number of cells `malloc` gave every grid line, and the number of pixels
it gave `new_image->data` (`none` for a null pointer). -/
structure data where
  image : ppm_image
  contour_map : Nat → ppm_image
  new_image : ppm_image
  scaled_image : image_ptr
  step_x : Nat
  step_y : Nat
  grid : Nat × Nat → Nat
  grid_alloc : List Nat
  new_image_alloc : Option Nat

/-- The per-worker record `thread_data` (lines 31-35); `img_data` is the
shared state passed alongside. -/
structure thread_data where
  thread_id : Nat
  no_threads : Nat

def CONTOUR_CONFIG_COUNT : Nat := 16
def STEP : Nat := 8
def SIGMA : Nat := 200
def RESCALE_X : Nat := 2048
def RESCALE_Y : Nat := 2048

/-- The bitmap `img->scaled_image` points to. -/
def working (d : data) : ppm_image :=
  match d.scaled_image with
  | .to_image => d.image
  | .to_new_image => d.new_image

/-- Store a bitmap through the pointer `img->scaled_image`. -/
def set_working (d : data) (im : ppm_image) : data :=
  match d.scaled_image with
  | .to_image => { d with image := im }
  | .to_new_image => { d with new_image := im }

/-! ## Job partition (lines 73-77 and 130-134) -/

/-- `start = thread_id * p / no_threads`. -/
def range_start (id D P : Nat) : Nat := id * D / P

/-- `end = (thread_id + 1) * p / no_threads`, replaced by `p` for the last
worker. -/
def range_end (id D P : Nat) : Nat :=
  if id = P - 1 then D else (id + 1) * D / P

/-! ## Grid sampling (lines 67-119) -/

/-- The value of `unsigned char curr_color = (red + green + blue) / 3`. -/
def curr_color (px : ppm_pixel) : Nat :=
  ((px.red.val + px.green.val + px.blue.val) / 3) % 256

/-- The cell value chosen at lines 85-89. -/
def sample_value (px : ppm_pixel) : Nat :=
  if curr_color px > SIGMA then 0 else 1

/-- The luminance of the spec: `(red + green + blue) / 3`, truncating, on
unbounded integers. -/
def luminance (px : ppm_pixel) : Nat :=
  (px.red.val + px.green.val + px.blue.val) / 3

/-- Index read at line 81. -/
def interior_index (step_x step_y y i j : Nat) : Int :=
  ((i * step_x * y + j * step_y : Nat) : Int)

/-- Index read at line 96: `i * step_x * y + x - 1`. -/
def column_index (step_x x y i : Nat) : Int :=
  ((i * step_x * y : Nat) : Int) + (x : Int) - 1

/-- Index read at line 107: `(x - 1) * y + j * step_y`. -/
def line_index (step_y x y j : Nat) : Int :=
  ((x : Int) - 1) * (y : Int) + ((j * step_y : Nat) : Int)

/-- Step 1 of marching squares for one worker (lines 67-119). -/
def sample_grid (t : thread_data) (img : data) : data :=
  let scaled_img := working img
  let p := scaled_img.x / img.step_x
  let q := scaled_img.y / img.step_y
  let start := range_start t.thread_id p t.no_threads
  let stop := range_end t.thread_id p t.no_threads
  let g1 := (List.range' start (stop - start)).foldl (fun g i =>
    (List.range q).foldl (fun g j =>
      mem_set g (i, j)
        (sample_value (scaled_img.data (interior_index img.step_x img.step_y scaled_img.y i j))))
      g) img.grid
  let g2 := mem_set g1 (p, q) 0
  let g3 := (List.range p).foldl (fun g i =>
    mem_set g (i, q)
      (sample_value (scaled_img.data (column_index img.step_x scaled_img.x scaled_img.y i)))) g2
  let g4 := (List.range q).foldl (fun g j =>
    mem_set g (p, j)
      (sample_value (scaled_img.data (line_index img.step_y scaled_img.x scaled_img.y j)))) g3
  { img with grid := g4 }

/-! ## Marching (lines 50-61 and 125-144) -/

/-- Index written at line 54: `(x + i) * image->y + y + j`. -/
def image_pixel_index (image_y x y i j : Nat) : Int :=
  (((x + i) * image_y + y + j : Nat) : Int)

/-- Index read at line 53: `contour->x * i + j`. -/
def contour_pixel_index (contour : ppm_image) (i j : Nat) : Int :=
  ((contour.x * i + j : Nat) : Int)

/-- Copy a contour tile into the image at `(x, y)` (lines 50-61). -/
def update_image (image contour : ppm_image) (x y : Nat) : ppm_image :=
  (List.range contour.x).foldl (fun im i =>
    (List.range contour.y).foldl (fun im j =>
      { im with data := mem_set im.data (image_pixel_index im.y x y i j)
                          (contour.data (contour_pixel_index contour i j)) }) im) image

/-- The tile index of line 138, an `unsigned char`. -/
def contour_index (a b c d : Nat) : Nat := (8 * a + 4 * b + 2 * c + 1 * d) % 256

/-- The tile index of cell `(i, j)` of a grid. -/
def cell_index (grid : Nat × Nat → Nat) (i j : Nat) : Nat :=
  contour_index (grid (i, j)) (grid (i, j + 1)) (grid (i + 1, j + 1)) (grid (i + 1, j))

/-- Step 2 of marching squares for one worker (lines 125-144). -/
def march (t : thread_data) (img : data) : data :=
  let p := (working img).x / img.step_x
  let q := (working img).y / img.step_y
  let start := range_start t.thread_id p t.no_threads
  let stop := range_end t.thread_id p t.no_threads
  set_working img ((List.range' start (stop - start)).foldl (fun im i =>
    (List.range q).foldl (fun im j =>
      update_image im (img.contour_map (cell_index img.grid i j)) (i * img.step_x) (j * img.step_y))
      im) (working img))

/-! ## Rescaling (lines 162-187) -/

/-- Start of the line range of `rescale_image` (line 167). -/
def rescale_start (id D P : Nat) : Nat := id * (D / P)

/-- End of the line range of `rescale_image` (lines 168-171). -/
def rescale_end (id D P : Nat) : Nat :=
  if id = P - 1 then D else (id + 1) * (D / P)

/-- Rescale for one worker (lines 162-187).  `bicubic image i sx j sy` stands
for the pixel `sample_bicubic` of `helpers.h` returns at
`u = i / (sx - 1)`, `v = j / (sy - 1)` (floating point, not in the source
tree). -/
def rescale_image (bicubic : ppm_image → Nat → Nat → Nat → Nat → ppm_pixel)
    (t : thread_data) (d : data) : data :=
  let start := rescale_start t.thread_id (working d).x t.no_threads
  let stop := rescale_end t.thread_id (working d).x t.no_threads
  (List.range' start (stop - start)).foldl (fun d i =>
    (List.range (working d).y).foldl (fun d j =>
      let img_scaled := working d
      set_working d { img_scaled with
        data := mem_set img_scaled.data (((i * img_scaled.y + j : Nat) : Int))
                  (bicubic d.image i img_scaled.x j img_scaled.y) }) d) d

/-! ## Worker body (lines 189-209) -/

/-- The first step of `thread_function` (lines 194-200): rescale, or make the
source the working bitmap. -/
def thread_function_rescale (bicubic : ppm_image → Nat → Nat → Nat → Nat → ppm_pixel)
    (t : thread_data) (d : data) : data :=
  if ¬ (d.image.x ≤ RESCALE_X ∧ d.image.y ≤ RESCALE_Y) then
    rescale_image bicubic t d
  else
    { d with scaled_image := .to_image }

/-- The whole body of `thread_function` for one worker (lines 189-209). -/
def thread_function (bicubic : ppm_image → Nat → Nat → Nat → Nat → ppm_pixel)
    (t : thread_data) (d : data) : data :=
  march t (sample_grid t (thread_function_rescale bicubic t d))

/-- One phase of the pool: the workers `order` run `f` one after the other
with `no_threads = P`. -/
def run_phase (f : thread_data → data → data) (P : Nat) (order : List Nat) (d : data) : data :=
  order.foldl (fun d id => f ⟨id, P⟩ d) d

/-- The sampling phase for the workers in `order`. -/
def sample_phase (P : Nat) (order : List Nat) (d : data) : data :=
  run_phase sample_grid P order d

/-- The marching phase for the workers in `order`. -/
def march_phase (P : Nat) (order : List Nat) (d : data) : data :=
  run_phase march P order d

/-! ## Initialisation (lines 211-260) -/

/-- Which of the allocations of `initialize_image_data_and_barrier` succeed. -/
structure malloc_results where
  map : Bool
  grid : Bool
  grid_line : Nat → Bool
  new_image : Bool
  new_image_data : Bool
  barrier : Bool

/-- What freshly allocated memory happens to hold. -/
structure fresh_memory where
  map : Nat → ppm_image
  grid : Nat × Nat → Nat
  pixels : Int → ppm_pixel

/-- Every allocation succeeds. -/
def malloc_ok : malloc_results :=
  { map := true, grid := true, grid_line := fun _ => true, new_image := true,
    new_image_data := true, barrier := true }

/-- The loop of lines 227-233 over the lines still to allocate: the sizes
of the lines, or exit status 1. -/
def alloc_grid_lines (m : malloc_results) (q : Nat) : List Nat → Except Nat (List Nat)
  | [] => .ok []
  | i :: rest =>
    if m.grid_line i then
      match alloc_grid_lines m q rest with
      | .ok sizes => .ok ((q + 1) :: sizes)
      | .error e => .error e
    else .error 1

/-- Lines 211-260: the shared record, or the exit status of `exit(1)`. -/
def initialize_image_data_and_barrier (m : malloc_results) (junk : fresh_memory)
    (image : ppm_image) (step_x step_y : Nat) : Except Nat data :=
  if ¬ m.map then .error 1 else
  let p := image.x / step_x
  let q := image.y / step_y
  if ¬ m.grid then .error 1 else
  match alloc_grid_lines m q (List.range (p + 1)) with
  | .error e => .error e
  | .ok sizes =>
    if ¬ m.new_image then .error 1 else
    let new_image : ppm_image := { x := RESCALE_X, y := RESCALE_Y, data := junk.pixels }
    -- line 244 tests `new_image` a second time, not `new_image->data`
    if ¬ m.new_image then .error 1 else
    if ¬ m.barrier then .error 1 else
    .ok { image := image
          contour_map := junk.map
          new_image := new_image
          scaled_image := .to_new_image
          step_x := step_x
          step_y := step_y
          grid := junk.grid
          grid_alloc := sizes
          new_image_alloc := if m.new_image_data then some (RESCALE_X * RESCALE_Y) else none }

/-! ## Store sequences of the two phases

The loops of `sample_grid`, `update_image` and `march` store single cells;
the lists below name those stores in program order.  `sample_grid_eq` and
`march_eq` show that the functions perform exactly these stores. -/

/-- Stores of the loop of lines 79-91 for one worker. -/
def sample_interior_writes (im : ppm_image) (step_x step_y : Nat) (t : thread_data) :
    List ((Nat × Nat) × Nat) :=
  let p := im.x / step_x
  let q := im.y / step_y
  let start := range_start t.thread_id p t.no_threads
  let stop := range_end t.thread_id p t.no_threads
  (List.range' start (stop - start)).flatMap fun i =>
    (List.range q).map fun j =>
      ((i, j), sample_value (im.data (interior_index step_x step_y im.y i j)))

/-- Stores of lines 93-116, the same for every worker. -/
def sample_border_writes (im : ppm_image) (step_x step_y : Nat) : List ((Nat × Nat) × Nat) :=
  let p := im.x / step_x
  let q := im.y / step_y
  [((p, q), 0)]
    ++ ((List.range p).map fun i =>
          ((i, q), sample_value (im.data (column_index step_x im.x im.y i))))
    ++ ((List.range q).map fun j =>
          ((p, j), sample_value (im.data (line_index step_y im.x im.y j))))

/-- Stores of `sample_grid` for one worker, in program order. -/
def sample_writes (im : ppm_image) (step_x step_y : Nat) (t : thread_data) :
    List ((Nat × Nat) × Nat) :=
  sample_interior_writes im step_x step_y t ++ sample_border_writes im step_x step_y

/-- What the code stores in cell `c` of the grid: the sample of line 81 inside,
of line 96 in the last column, of line 107 in the last line, and 0 at `(p, q)`. -/
def sample_expected (im : ppm_image) (step_x step_y : Nat) (c : Nat × Nat) : Nat :=
  let p := im.x / step_x
  let q := im.y / step_y
  if c.1 < p ∧ c.2 < q then
    sample_value (im.data (interior_index step_x step_y im.y c.1 c.2))
  else if c.1 < p ∧ c.2 = q then
    sample_value (im.data (column_index step_x im.x im.y c.1))
  else if c.1 = p ∧ c.2 < q then
    sample_value (im.data (line_index step_y im.x im.y c.2))
  else 0

/-- The grid a completed sampling phase leaves: `sample_expected` on the
`(p+1) × (q+1)` cells, the old content elsewhere. -/
def sampled_grid (im : ppm_image) (step_x step_y : Nat) (g : Nat × Nat → Nat) :
    Nat × Nat → Nat :=
  fun c => if c.1 ≤ im.x / step_x ∧ c.2 ≤ im.y / step_y then sample_expected im step_x step_y c
    else g c

/-- A bitmap after a sequence of pixel stores. -/
def with_writes (im : ppm_image) (ws : List (Int × ppm_pixel)) : ppm_image :=
  { im with data := apply_writes im.data ws }

/-- Stores of `update_image`, in program order. -/
def update_image_writes (image_y : Nat) (contour : ppm_image) (x y : Nat) :
    List (Int × ppm_pixel) :=
  (List.range contour.x).flatMap fun i =>
    (List.range contour.y).map fun j =>
      (image_pixel_index image_y x y i j, contour.data (contour_pixel_index contour i j))

/-- Stores of `march` for one worker, in program order. -/
def march_writes (grid : Nat × Nat → Nat) (contour_map : Nat → ppm_image)
    (step_x step_y image_x image_y : Nat) (t : thread_data) : List (Int × ppm_pixel) :=
  let p := image_x / step_x
  let q := image_y / step_y
  let start := range_start t.thread_id p t.no_threads
  let stop := range_end t.thread_id p t.no_threads
  (List.range' start (stop - start)).flatMap fun i =>
    (List.range q).flatMap fun j =>
      update_image_writes image_y (contour_map (cell_index grid i j)) (i * step_x) (j * step_y)

/-- The pixel indices `march` stores to, for one worker. -/
def march_indices (t : thread_data) (d : data) : List Int :=
  (march_writes d.grid d.contour_map d.step_x d.step_y (working d).x (working d).y t).map Prod.fst

/-! ## Concrete inputs -/

def white : ppm_pixel := ⟨255, 255, 255⟩
def black : ppm_pixel := ⟨0, 0, 0⟩

/-- An 8 x 8 tile of one colour. -/
def plain_tile (px : ppm_pixel) : ppm_image := { x := 8, y := 8, data := fun _ => px }

/-- The shared record when the bitmap `im` is both the source and the working
bitmap, with steps of 8, plain tiles and arbitrary grid content. -/
def state_of (im : ppm_image) : data :=
  { image := im
    contour_map := fun k => plain_tile ⟨Fin.ofNat k, 0, 0⟩
    new_image := { x := RESCALE_X, y := RESCALE_Y, data := fun _ => black }
    scaled_image := .to_image
    step_x := STEP
    step_y := STEP
    grid := fun _ => 7
    grid_alloc := List.replicate (im.x / STEP + 1) (im.y / STEP + 1)
    new_image_alloc := some (RESCALE_X * RESCALE_Y) }

/-- A bitmap of `x` lines of `y` pixels: `data[z] = inside z` for the indices
of its buffer, and `outside` for what lies next to the buffer in memory. -/
def bitmap (x y : Nat) (inside : Int → ppm_pixel) (outside : ppm_pixel) : ppm_image :=
  { x := x, y := y, data := fun z => if 0 ≤ z ∧ z < (x * y : Nat) then inside z else outside }

/-- Eight lines of sixteen pixels, all white but pixel 7 (line 0, column 7). -/
def c4_bitmap : ppm_image := bitmap 8 16 (fun z => if z = 7 then black else white) white

/-- A state ready for marching: `state_of c4_bitmap` with a grid of zeros and
ones. -/
def marching_input : data :=
  { state_of c4_bitmap with grid := fun c => (c.1 + c.2) % 2 }

/-- Sixteen lines of one white pixel each; the memory next to the buffer is
dark. -/
def c5_bitmap : ppm_image := bitmap 16 1 (fun _ => white) black

/-- A white bitmap of 16 lines of 8 pixels (two blocks, one per worker) as
the working bitmap. -/
def c8_state : data := state_of (bitmap 16 8 (fun _ => white) black)

/-- A source of 4096 lines of 8 pixels: larger than the rescale target in
`x`, smaller in `y`. -/
def c9_source : ppm_image := { x := 4096, y := 8, data := fun _ => white }

/-- Stores of `rescale_image` for one worker, in program order, into a target
of `sx` lines of `sy` pixels. -/
def rescale_writes (bicubic : ppm_image → Nat → Nat → Nat → Nat → ppm_pixel)
    (image : ppm_image) (sx sy : Nat) (t : thread_data) : List (Int × ppm_pixel) :=
  let start := rescale_start t.thread_id sx t.no_threads
  let stop := rescale_end t.thread_id sx t.no_threads
  (List.range' start (stop - start)).flatMap fun i =>
    (List.range sy).map fun j => (((i * sy + j : Nat) : Int), bicubic image i sx j sy)

/-! ## Reads of the two phases -/

/-- Pixel indices read by the loop of lines 79-91 for one worker. -/
def sample_interior_reads (im : ppm_image) (step_x step_y : Nat) (t : thread_data) : List Int :=
  let p := im.x / step_x
  let q := im.y / step_y
  let start := range_start t.thread_id p t.no_threads
  let stop := range_end t.thread_id p t.no_threads
  (List.range' start (stop - start)).flatMap fun i =>
    (List.range q).map fun j => interior_index step_x step_y im.y i j

/-- Pixel indices read by the loop of lines 95-105. -/
def sample_column_reads (im : ppm_image) (step_x : Nat) : List Int :=
  (List.range (im.x / step_x)).map fun i => column_index step_x im.x im.y i

/-- Pixel indices read by the loop of lines 106-116. -/
def sample_line_reads (im : ppm_image) (step_y : Nat) : List Int :=
  (List.range (im.y / step_y)).map fun j => line_index step_y im.x im.y j

/-- Pixel indices `sample_grid` reads for one worker, in program order. -/
def sample_reads (im : ppm_image) (step_x step_y : Nat) (t : thread_data) : List Int :=
  sample_interior_reads im step_x step_y t ++ sample_column_reads im step_x
    ++ sample_line_reads im step_y

/-- Cells of the grid `march` reads at line 138 for one worker, in program
order. -/
def march_grid_reads (t : thread_data) (d : data) : List (Nat × Nat) :=
  let p := (working d).x / d.step_x
  let q := (working d).y / d.step_y
  let start := range_start t.thread_id p t.no_threads
  let stop := range_end t.thread_id p t.no_threads
  (List.range' start (stop - start)).flatMap fun i =>
    (List.range q).flatMap fun j => [(i, j), (i, j + 1), (i + 1, j + 1), (i + 1, j)]

/-- Indices `k` of the lookups `contour_map[k]` of line 139 for one worker. -/
def march_tile_lookups (t : thread_data) (d : data) : List Nat :=
  let p := (working d).x / d.step_x
  let q := (working d).y / d.step_y
  let start := range_start t.thread_id p t.no_threads
  let stop := range_end t.thread_id p t.no_threads
  (List.range' start (stop - start)).flatMap fun i =>
    (List.range q).map fun j => cell_index d.grid i j

/-! ## The pool and `main` (lines 40-46 and 262-305) -/

/-- The file name `sprintf(filename, "./contours/%d.ppm", i)` builds. -/
def contour_filename (i : Nat) : String :=
  "./contours/" ++ toString i ++ ".ppm"

/-- Load the 16 tiles (lines 40-46).  `read_ppm` is the reader of
`helpers.c`, not in the source tree: it is a parameter. -/
def init_contour_map (read_ppm : String → ppm_image) (d : data) : data :=
  (List.range CONTOUR_CONFIG_COUNT).foldl (fun d i =>
    { d with contour_map := mem_set d.contour_map i (read_ppm (contour_filename i)) }) d

/-- The three phases of the `P` workers (`thread_function`, lines 189-209),
each phase in the order given; the barriers separate the phases. -/
def run_workers (bicubic : ppm_image → Nat → Nat → Nat → Nat → ppm_pixel) (P : Nat)
    (r_order s_order m_order : List Nat) (d : data) : data :=
  march_phase P m_order (sample_phase P s_order
    (run_phase (thread_function_rescale bicubic) P r_order d))

/-- The C test `isspace` in the "C" locale. -/
def isspace (c : Char) : Bool :=
  c.toNat = 32 || (9 ≤ c.toNat && c.toNat ≤ 13)

/-- The digits at the head of a text, read in base 10 onto `acc`. -/
def atoi_digits : List Char → Nat → Nat
  | [], acc => acc
  | c :: cs, acc =>
    if 48 ≤ c.toNat ∧ c.toNat ≤ 57 then atoi_digits cs (acc * 10 + (c.toNat - 48)) else acc

/-- The value `strtol(s, NULL, 10)` returns: leading white space, an
optional sign, then decimal digits up to the first other character (0 when
there is no digit), kept within the range of a 64-bit `long`. -/
def strtol (s : String) : Int :=
  let v : Int :=
    match s.toList.dropWhile isspace with
    | '-' :: rest => - (atoi_digits rest 0 : Int)
    | '+' :: rest => (atoi_digits rest 0 : Int)
    | cs => (atoi_digits cs 0 : Int)
  if v < -9223372036854775808 then -9223372036854775808
  else if 9223372036854775807 < v then 9223372036854775807
  else v

/-- The conversion of a `long` to a 32-bit `int`. -/
def to_int (v : Int) : Int :=
  (v + 2147483648) % 4294967296 - 2147483648

/-- The C library function `atoi`, that is `(int) strtol(s, NULL, 10)`. -/
def atoi (s : String) : Int :=
  to_int (strtol s)

/-- What lies outside `main`: the reader of `helpers.c`, `sample_bicubic`,
the outcome of the allocations, the content of fresh memory, and whether
`pthread_barrier_destroy` returns when it is given a barrier that was never
initialised (POSIX leaves that call undefined). -/
structure environment where
  read_ppm : String → ppm_image
  sample_bicubic : ppm_image → Nat → Nat → Nat → Nat → ppm_pixel
  mallocs : malloc_results
  junk : fresh_memory
  barrier_destroy_returns : Bool

/-- What a run of `main` does that can be seen from outside: the exit status,
the lines written to `stderr`, the files read with `read_ppm`, the ids of the
workers created, and the calls of `write_ppm`.  The status is `none` when the
run reaches a step whose behaviour is undefined; the lists then hold what was
done before that step. -/
structure main_result where
  status : Option Nat
  stderr : List String
  read_ppm_calls : List String
  workers : List Nat
  write_ppm_calls : List (ppm_image × String)

/-- The loop of lines 153-155 of `free_resources` frees `grid[0 .. x / step_x]`
for the bitmap it is given; it stays inside the array of grid lines when
that many lines were allocated. -/
def free_resources_in_bounds (d : data) : Bool :=
  (working d).x / d.step_x < d.grid_alloc.length

/-- The function `main` (lines 262-305), `argc` being the length of `argv`.
The worker count is used as `atoi` returns it.  The loops of lines 281 and
290 run for `i < no_threads`, so they create no worker for a count of 0 or
less, and the array `tid` of line 269 is then never indexed; the workers run
their phases in the order of their ids.  For such a
count `pthread_barrier_init` (line 280) does not initialise the barrier (it
refuses a count of 0, and a negative count converts to an unsigned count
above its limit), so line 294 destroys a barrier that was never initialised:
the environment tells whether that call returns.  Of `free_resources` only
the bound of its loop over the grid lines is kept. -/
def main (env : environment) (argv : List String) : main_result :=
  if argv.length < 4 then
    { status := some 1, stderr := ["Usage: ./tema1 <in_file> <out_file> <P>"],
      read_ppm_calls := [], workers := [], write_ppm_calls := [] }
  else
    let no_threads := atoi (argv.getD 3 "")
    let image := env.read_ppm (argv.getD 1 "")
    match initialize_image_data_and_barrier env.mallocs env.junk image STEP STEP with
    | .error e =>
      { status := some e, stderr := ["Unable to allocate memory"],
        read_ppm_calls := [argv.getD 1 ""], workers := [], write_ppm_calls := [] }
    | .ok data_img =>
      let data_img := init_contour_map env.read_ppm data_img
      let ids := List.range no_threads.toNat
      let data_img := run_workers env.sample_bicubic no_threads.toNat ids ids ids data_img
      if no_threads ≤ 0 ∧ env.barrier_destroy_returns = false then
        { status := none, stderr := [],
          read_ppm_calls :=
            argv.getD 1 "" :: (List.range CONTOUR_CONFIG_COUNT).map contour_filename,
          workers := ids,
          write_ppm_calls := [] }
      else
        { status := if free_resources_in_bounds data_img then some 0 else none,
          stderr := [],
          read_ppm_calls :=
            argv.getD 1 "" :: (List.range CONTOUR_CONFIG_COUNT).map contour_filename,
          workers := ids,
          write_ppm_calls := [(working data_img, argv.getD 2 "")] }

/-- Every allocation succeeds but the one of the pixel buffer of line 243. -/
def pixel_buffer_fails : malloc_results :=
  { malloc_ok with new_image_data := false }

/-- An environment in which every file is an 8 x 8 white bitmap, every
allocation succeeds, fresh memory is dark, and `pthread_barrier_destroy`
returns also for a barrier that was never initialised. -/
def plain_environment : environment :=
  { read_ppm := fun _ => bitmap 8 8 (fun _ => white) black
    sample_bicubic := fun image _ _ _ _ => image.data 0
    mallocs := malloc_ok
    junk := { map := fun _ => plain_tile black, grid := fun _ => 0, pixels := fun _ => black }
    barrier_destroy_returns := true }

/-- A white bitmap of 80 lines of 8 pixels as the working bitmap, the memory
next to its buffer being dark. -/
def c2_state_dark : data := state_of (bitmap 80 8 (fun _ => white) black)

/-- The same white bitmap of 80 lines of 8 pixels, the memory next to its
buffer being bright. -/
def c2_state_bright : data := state_of (bitmap 80 8 (fun _ => white) white)

/-! ## Job partition: lemmas -/

theorem range_formula_mono (D P : Nat) {a b : Nat} (h : a ≤ b) : a * D / P ≤ b * D / P :=
  Nat.div_le_div_right (Nat.mul_le_mul_right D h)

theorem range_formula_last (D : Nat) {P : Nat} (hP : 1 ≤ P) : P * D / P = D :=
  Nat.mul_div_cancel_left D (by omega)

/-- With or without the override, the end is the formula `(id+1)*D/P`. -/
theorem range_end_eq (D : Nat) {P : Nat} (hP : 1 ≤ P) (id : Nat) (hid : id < P) :
    range_end id D P = (id + 1) * D / P := by
  unfold range_end
  split
  · next h =>
    have : id + 1 = P := by omega
    rw [this, range_formula_last D hP]
  · rfl

theorem range_end_le (D : Nat) {P : Nat} (hP : 1 ≤ P) (id : Nat) (hid : id < P) :
    range_end id D P ≤ D := by
  rw [range_end_eq D hP id hid]
  calc (id + 1) * D / P ≤ P * D / P := range_formula_mono D P (by omega)
    _ = D := range_formula_last D hP

theorem range_start_le_end (D : Nat) {P : Nat} (hP : 1 ≤ P) (id : Nat) (hid : id < P) :
    range_start id D P ≤ range_end id D P := by
  rw [range_end_eq D hP id hid]
  exact range_formula_mono D P (by omega)

/-- Ranges of workers `a < b` are in order: `end a ≤ start b`. -/
theorem range_end_le_start (D : Nat) {P : Nat} (hP : 1 ≤ P) {a b : Nat} (hab : a < b)
    (hb : b < P) : range_end a D P ≤ range_start b D P := by
  rw [range_end_eq D hP a (by omega)]
  exact range_formula_mono D P (by omega)

/-- Two workers whose ranges share an index are the same worker. -/
theorem range_disjoint (D : Nat) {P : Nat} (hP : 1 ≤ P) {a b k : Nat} (ha : a < P) (hb : b < P)
    (hka : range_start a D P ≤ k ∧ k < range_end a D P)
    (hkb : range_start b D P ≤ k ∧ k < range_end b D P) : a = b := by
  rcases Nat.lt_trichotomy a b with h | h | h
  · have := range_end_le_start D hP h hb
    omega
  · exact h
  · have := range_end_le_start D hP h ha
    omega

/-- Every index below `D` lies in the range of some worker. -/
theorem range_cover (D : Nat) {P : Nat} (hP : 1 ≤ P) {k : Nat} (hk : k < D) :
    ∃ id, id < P ∧ range_start id D P ≤ k ∧ k < range_end id D P := by
  have hex : ∃ n, k < (n + 1) * D / P := ⟨P - 1, by
    have : P - 1 + 1 = P := by omega
    rw [this, range_formula_last D hP]; exact hk⟩
  classical
  refine ⟨Nat.find hex, ?_, ?_, ?_⟩
  · by_contra hge
    have hle : Nat.find hex ≤ P - 1 := Nat.find_min' hex (by
      have : P - 1 + 1 = P := by omega
      rw [this, range_formula_last D hP]; exact hk)
    omega
  · unfold range_start
    by_cases h0 : Nat.find hex = 0
    · rw [h0]; simp
    · have hlt : Nat.find hex - 1 < Nat.find hex := by omega
      have hmin := Nat.find_min hex hlt
      have : Nat.find hex - 1 + 1 = Nat.find hex := by omega
      rw [this] at hmin
      omega
  · have hlt : Nat.find hex < P := by
      by_contra hge
      have hle : Nat.find hex ≤ P - 1 := Nat.find_min' hex (by
        have : P - 1 + 1 = P := by omega
        rw [this, range_formula_last D hP]; exact hk)
      omega
    rw [range_end_eq D hP _ hlt]
    exact Nat.find_spec hex

/-- No intermediate value of the range formula exceeds `P * D`; with at most
256 grid lines and fewer than `2^23` workers it fits a 32-bit `int`. -/
theorem range_no_overflow {P D id : Nat} (hid : id < P) (hD : D ≤ 256) (hPw : P < 2 ^ 23) :
    id * D < 2 ^ 31 ∧ (id + 1) * D < 2 ^ 31 := by
  have h1 : (id + 1) * D ≤ P * 256 := Nat.mul_le_mul (by omega) hD
  have h2 : id * D ≤ (id + 1) * D := Nat.mul_le_mul_right D (by omega)
  omega

/-- C1: for a worker count `P ≥ 1` and a dimension `D`, the ranges
`[range_start id, range_end id)` of the workers `id < P` stay inside `[0, D)`,
are pairwise disjoint, and every index of `[0, D)` belongs to exactly one of
them. -/
theorem C1_ranges_partition (P D : Nat) (hP : 1 ≤ P) :
    (∀ id, id < P → range_start id D P ≤ range_end id D P ∧ range_end id D P ≤ D) ∧
    (∀ a b, a < P → b < P → a ≠ b →
      ∀ k, ¬ ((range_start a D P ≤ k ∧ k < range_end a D P) ∧
              (range_start b D P ≤ k ∧ k < range_end b D P))) ∧
    (∀ k, k < D → ∃! id, id < P ∧ range_start id D P ≤ k ∧ k < range_end id D P) := by
  refine ⟨fun id hid => ⟨range_start_le_end D hP id hid, range_end_le D hP id hid⟩, ?_, ?_⟩
  · intro a b ha hb hab k hk
    exact hab (range_disjoint D hP ha hb hk.1 hk.2)
  · intro k hk
    obtain ⟨id, hid, h1, h2⟩ := range_cover D hP hk
    refine ⟨id, ⟨hid, h1, h2⟩, ?_⟩
    rintro b ⟨hb, hb1, hb2⟩
    exact range_disjoint D hP hb hid ⟨hb1, hb2⟩ ⟨h1, h2⟩

theorem C1_ranges_partition_witness :
    1 ≤ 3 ∧
    ((∀ id, id < 3 → range_start id 10 3 ≤ range_end id 10 3 ∧ range_end id 10 3 ≤ 10) ∧
    (∀ a b, a < 3 → b < 3 → a ≠ b →
      ∀ k, ¬ ((range_start a 10 3 ≤ k ∧ k < range_end a 10 3) ∧
              (range_start b 10 3 ≤ k ∧ k < range_end b 10 3))) ∧
    (∀ k, k < 10 → ∃! id, id < 3 ∧ range_start id 10 3 ≤ k ∧ k < range_end id 10 3)) :=
  ⟨by decide, C1_ranges_partition 3 10 (by decide)⟩

/-! ## Memory: lemmas -/

section
variable {α β : Type} [DecidableEq α]

theorem mem_set_same (m : α → β) (k : α) (v : β) : mem_set m k v k = v := by
  simp [mem_set]

theorem mem_set_other (m : α → β) {k c : α} (v : β) (h : c ≠ k) : mem_set m k v c = m c := by
  simp [mem_set, h]

theorem apply_writes_nil (m : α → β) : apply_writes m [] = m := rfl

theorem apply_writes_cons (m : α → β) (w : α × β) (ws : List (α × β)) :
    apply_writes m (w :: ws) = apply_writes (mem_set m w.1 w.2) ws := rfl

theorem apply_writes_append (m : α → β) (ws vs : List (α × β)) :
    apply_writes m (ws ++ vs) = apply_writes (apply_writes m ws) vs := by
  simp [apply_writes, List.foldl_append]

/-- A key no store names keeps its content. -/
theorem apply_writes_untouched (ws : List (α × β)) (m : α → β) (c : α)
    (h : ∀ w ∈ ws, w.1 ≠ c) : apply_writes m ws c = m c := by
  induction ws generalizing m with
  | nil => rfl
  | cons w ws ih =>
    rw [apply_writes_cons, ih _ (fun w' hw' => h w' (List.mem_cons_of_mem _ hw'))]
    exact mem_set_other m _ (fun hc => h w (List.mem_cons_self _ _) hc.symm)

/-- A key that is stored to, always with the value `v`, holds `v`. -/
theorem apply_writes_touched (ws : List (α × β)) (m : α → β) (c : α) (v : β)
    (hv : ∀ w ∈ ws, w.1 = c → w.2 = v) (hex : ∃ w ∈ ws, w.1 = c) :
    apply_writes m ws c = v := by
  induction ws generalizing m with
  | nil => obtain ⟨w, hw, _⟩ := hex; cases hw
  | cons w ws ih =>
    rw [apply_writes_cons]
    by_cases hlater : ∃ w' ∈ ws, w'.1 = c
    · exact ih _ (fun w' hw' => hv w' (List.mem_cons_of_mem _ hw')) hlater
    · have hno : ∀ w' ∈ ws, w'.1 ≠ c := fun w' hw' hc => hlater ⟨w', hw', hc⟩
      rw [apply_writes_untouched ws _ c hno]
      obtain ⟨w0, hw0, hc0⟩ := hex
      rcases List.mem_cons.mp hw0 with h | h
      · subst h
        rw [← hc0, mem_set_same]
        exact hv w0 (List.mem_cons_self _ _) hc0
      · exact absurd hc0 (hno w0 h)

/-- A loop of single stores is the sequence of its stores. -/
theorem foldl_mem_set {γ : Type} (l : List γ) (k : γ → α) (v : γ → β) (m : α → β) :
    l.foldl (fun m a => mem_set m (k a) (v a)) m = apply_writes m (l.map fun a => (k a, v a)) := by
  simp [apply_writes, List.foldl_map]

/-- A loop whose body performs a sequence of stores performs their concatenation. -/
theorem foldl_apply_writes {γ : Type} (l : List γ) (f : γ → List (α × β)) (m : α → β) :
    l.foldl (fun m a => apply_writes m (f a)) m = apply_writes m (l.flatMap f) := by
  induction l generalizing m with
  | nil => rfl
  | cons a l ih => rw [List.foldl_cons, ih, List.flatMap_cons, apply_writes_append]

/-- Two sequences of stores with the same stores, none of which disagree on a
key, leave the same memory. -/
theorem apply_writes_congr (ws vs : List (α × β)) (m : α → β)
    (hsame : ∀ w, w ∈ ws ↔ w ∈ vs)
    (hfun : ∀ w ∈ ws, ∀ w' ∈ ws, w.1 = w'.1 → w.2 = w'.2) :
    apply_writes m ws = apply_writes m vs := by
  funext c
  by_cases hex : ∃ w ∈ ws, w.1 = c
  · obtain ⟨w0, hw0, hc0⟩ := hex
    rw [apply_writes_touched ws m c w0.2 (fun w hw hc => hfun w hw w0 hw0 (hc.trans hc0.symm))
          ⟨w0, hw0, hc0⟩,
        apply_writes_touched vs m c w0.2
          (fun w hw hc => hfun w ((hsame w).mpr hw) w0 hw0 (hc.trans hc0.symm))
          ⟨w0, (hsame w0).mp hw0, hc0⟩]
  · rw [apply_writes_untouched ws m c (fun w hw hc => hex ⟨w, hw, hc⟩),
        apply_writes_untouched vs m c (fun w hw hc => hex ⟨w, (hsame w).mpr hw, hc⟩)]
end

/-! ## Grid sampling: lemmas -/

/-- The function `sample_grid` performs the stores of `sample_writes`. -/
theorem sample_grid_eq (t : thread_data) (d : data) :
    sample_grid t d =
      { d with grid := apply_writes d.grid (sample_writes (working d) d.step_x d.step_y t) } := by
  simp only [sample_grid, sample_writes, sample_interior_writes, sample_border_writes,
    foldl_mem_set, foldl_apply_writes, apply_writes_append, apply_writes_cons, apply_writes_nil]

/-- A sampling phase performs the stores of its workers, one worker after the other. -/
theorem sample_phase_eq (P : Nat) (order : List Nat) (d : data) :
    sample_phase P order d =
      { d with
          grid := apply_writes d.grid
            (order.flatMap fun id => sample_writes (working d) d.step_x d.step_y ⟨id, P⟩) } := by
  unfold sample_phase run_phase
  induction order generalizing d with
  | nil => rfl
  | cons id rest ih =>
    rw [List.foldl_cons, ih, sample_grid_eq, List.flatMap_cons, apply_writes_append]
    rfl

/-- Every store of a worker `id < P` lies in the grid and carries the value
`sample_expected` of its cell. -/
theorem sample_writes_sound (im : ppm_image) (sx sy : Nat) {P : Nat} (hP : 1 ≤ P) {id : Nat}
    (hid : id < P) (w : (Nat × Nat) × Nat) (hw : w ∈ sample_writes im sx sy ⟨id, P⟩) :
    w.1.1 ≤ im.x / sx ∧ w.1.2 ≤ im.y / sy ∧ w.2 = sample_expected im sx sy w.1 := by
  have hend := range_end_le (im.x / sx) hP id hid
  simp only [sample_writes, sample_interior_writes, sample_border_writes, List.mem_append,
    List.mem_flatMap, List.mem_map, List.mem_range, List.mem_range'_1, List.mem_singleton] at hw
  rcases hw with ⟨i, hi, j, hj, rfl⟩ | (rfl | ⟨i, hi, rfl⟩) | ⟨j, hj, rfl⟩
  · have hip : i < im.x / sx := by omega
    refine ⟨by simp; omega, by simp; omega, ?_⟩
    simp [sample_expected, hip, hj]
  · simp [sample_expected]
  · refine ⟨by simp; omega, by simp, ?_⟩
    simp [sample_expected, hi]
  · refine ⟨by simp, by simp; omega, ?_⟩
    simp [sample_expected, hj]

/-- Every cell of the grid is stored to by the worker whose range holds its
line (any worker, for the last line). -/
theorem sample_writes_complete (im : ppm_image) (sx sy : Nat) {P : Nat} (hP : 1 ≤ P)
    (c : Nat × Nat) (h1 : c.1 ≤ im.x / sx) (h2 : c.2 ≤ im.y / sy) :
    ∃ id, id < P ∧ ∃ w ∈ sample_writes im sx sy ⟨id, P⟩, w.1 = c := by
  obtain ⟨i, j⟩ := c
  simp only at h1 h2
  by_cases hi : i < im.x / sx
  · by_cases hj : j < im.y / sy
    · obtain ⟨id, hid, hs, he⟩ := range_cover (im.x / sx) hP hi
      refine ⟨id, hid, ((i, j), sample_value (im.data (interior_index sx sy im.y i j))), ?_, rfl⟩
      simp only [sample_writes, List.mem_append]
      left
      simp only [sample_interior_writes, List.mem_flatMap, List.mem_map, List.mem_range,
        List.mem_range'_1]
      exact ⟨i, ⟨hs, by omega⟩, j, hj, rfl⟩
    · have hjq : j = im.y / sy := by omega
      subst hjq
      refine ⟨0, by omega, ((i, im.y / sy), sample_value (im.data (column_index sx im.x im.y i))), ?_, rfl⟩
      simp only [sample_writes, sample_border_writes, List.mem_append, List.mem_map,
        List.mem_range]
      right; left; right
      exact ⟨i, hi, rfl⟩
  · have hip : i = im.x / sx := by omega
    subst hip
    by_cases hj : j < im.y / sy
    · refine ⟨0, by omega, ((im.x / sx, j), sample_value (im.data (line_index sy im.x im.y j))), ?_, rfl⟩
      simp only [sample_writes, sample_border_writes, List.mem_append, List.mem_map,
        List.mem_range]
      right; right
      exact ⟨j, hj, rfl⟩
    · have hjq : j = im.y / sy := by omega
      subst hjq
      refine ⟨0, by omega, ((im.x / sx, im.y / sy), 0), ?_, rfl⟩
      simp [sample_writes, sample_border_writes]

/-- The grid after a sampling phase in which every worker `id < P` ran (in any
order, possibly more than once): every cell of the `(p+1) × (q+1)` grid
holds `sample_expected`, every other cell is untouched. -/
theorem sample_phase_grid (P : Nat) (hP : 1 ≤ P) (order : List Nat)
    (hlt : ∀ id ∈ order, id < P) (hall : ∀ id, id < P → id ∈ order) (d : data) (c : Nat × Nat) :
    (sample_phase P order d).grid c =
      if c.1 ≤ (working d).x / d.step_x ∧ c.2 ≤ (working d).y / d.step_y then
        sample_expected (working d) d.step_x d.step_y c
      else d.grid c := by
  rw [sample_phase_eq]
  show apply_writes d.grid _ c = _
  split
  · next hc =>
    apply apply_writes_touched
    · intro w hw hwc
      obtain ⟨id, hid, hw'⟩ := List.mem_flatMap.mp hw
      rw [← hwc]
      exact (sample_writes_sound (working d) d.step_x d.step_y hP (hlt id hid) w hw').2.2
    · obtain ⟨id, hid, w, hw, hwc⟩ :=
        sample_writes_complete (working d) d.step_x d.step_y hP c hc.1 hc.2
      exact ⟨w, List.mem_flatMap.mpr ⟨id, hall id hid, hw⟩, hwc⟩
  · next hc =>
    apply apply_writes_untouched
    intro w hw hwc
    obtain ⟨id, hid, hw'⟩ := List.mem_flatMap.mp hw
    have := sample_writes_sound (working d) d.step_x d.step_y hP (hlt id hid) w hw'
    rw [hwc] at this
    exact hc ⟨this.1, this.2.1⟩

/-- A sampling phase changes nothing but the grid. -/
theorem sample_phase_frame (P : Nat) (order : List Nat) (d : data) :
    (sample_phase P order d).image = d.image ∧
    (sample_phase P order d).new_image = d.new_image ∧
    (sample_phase P order d).scaled_image = d.scaled_image ∧
    (sample_phase P order d).contour_map = d.contour_map ∧
    (sample_phase P order d).step_x = d.step_x ∧
    (sample_phase P order d).step_y = d.step_y ∧
    working (sample_phase P order d) = working d := by
  rw [sample_phase_eq]
  exact ⟨rfl, rfl, rfl, rfl, rfl, rfl, rfl⟩

theorem perm_range_lt {P : Nat} {order : List Nat} (h : order.Perm (List.range P)) :
    ∀ id ∈ order, id < P := fun _ hid => List.mem_range.mp (h.mem_iff.mp hid)

theorem perm_range_mem {P : Nat} {order : List Nat} (h : order.Perm (List.range P)) :
    ∀ id, id < P → id ∈ order := fun _ hid => h.mem_iff.mpr (List.mem_range.mpr hid)

/-- The stored cell value is the thresholded luminance: the conversion to
`unsigned char` loses nothing, since `(r + g + b) / 3 ≤ 255`. -/
theorem sample_value_eq (px : ppm_pixel) :
    sample_value px = if luminance px ≤ 200 then 1 else 0 := by
  have h1 := px.red.isLt
  have h2 := px.green.isLt
  have h3 := px.blue.isLt
  unfold sample_value curr_color luminance SIGMA
  have : (px.red.val + px.green.val + px.blue.val) / 3 % 256
      = (px.red.val + px.green.val + px.blue.val) / 3 := Nat.mod_eq_of_lt (by omega)
  rw [this]
  split <;> split <;> first | rfl | omega

/-- C3: after `sample_grid` has run for all workers `0..P-1`, in any order,
every interior cell `(i, j)`, `i < p`, `j < q`, holds 1 if the luminance
`(red + green + blue) / 3` of the pixel `data[i * step_x * y + j * step_y]`
is at most 200, and 0 otherwise. -/
theorem C3_interior_cells (P : Nat) (hP : 1 ≤ P) (order : List Nat)
    (horder : order.Perm (List.range P)) (d : data) (i j : Nat)
    (hi : i < (working d).x / d.step_x) (hj : j < (working d).y / d.step_y) :
    (sample_phase P order d).grid (i, j) =
      if luminance ((working d).data
          (((i * d.step_x * (working d).y + j * d.step_y : Nat) : Int))) ≤ 200
      then 1 else 0 := by
  rw [sample_phase_grid P hP order (perm_range_lt horder) (perm_range_mem horder) d (i, j)]
  have h1 : i ≤ (working d).x / d.step_x := by omega
  have h2 : j ≤ (working d).y / d.step_y := by omega
  simp only [h1, h2, and_self, if_true, sample_expected, hi, hj, sample_value_eq, interior_index]

/-! ## Marching: lemmas -/

/-- Quotient and remainder are unique. -/
theorem mul_add_unique {n a b a' b' : Nat} (hb : b < n) (hb' : b' < n)
    (h : a * n + b = a' * n + b') : a = a' ∧ b = b' := by
  have hn : 0 < n := by omega
  have h1 : (a * n + b) / n = a := by
    rw [Nat.add_comm, Nat.add_mul_div_right _ _ hn, Nat.div_eq_of_lt hb, Nat.zero_add]
  have h2 : (a' * n + b') / n = a' := by
    rw [Nat.add_comm, Nat.add_mul_div_right _ _ hn, Nat.div_eq_of_lt hb', Nat.zero_add]
  have ha : a = a' := by rw [← h1, ← h2, h]
  subst ha
  exact ⟨rfl, by omega⟩

/-- A cell below the quotient leaves room for a whole step. -/
theorem succ_mul_le_of_lt_div {i x s : Nat} (h : i < x / s) : (i + 1) * s ≤ x := by
  rcases Nat.eq_zero_or_pos s with hs | hs
  · subst hs; simp at h
  · exact (Nat.le_div_iff_mul_le hs).mp h

/-- The pixel index of `update_image` determines the cell and the offset in
the tile, as long as the tile stays inside its `step_x × step_y` block. -/
theorem image_pixel_index_inj {sx sy y i j a b i' j' a' b' : Nat}
    (hj : j < y / sy) (hj' : j' < y / sy) (ha : a < sx) (ha' : a' < sx) (hb : b < sy)
    (hb' : b' < sy)
    (h : image_pixel_index y (i * sx) (j * sy) a b = image_pixel_index y (i' * sx) (j' * sy) a' b') :
    i = i' ∧ j = j' ∧ a = a' ∧ b = b' := by
  unfold image_pixel_index at h
  have h := Int.ofNat_inj.mp h
  have h1 := succ_mul_le_of_lt_div hj
  have h2 := succ_mul_le_of_lt_div hj'
  have hc : j * sy + b < y := by
    have : (j + 1) * sy = j * sy + sy := by ring
    omega
  have hc' : j' * sy + b' < y := by
    have : (j' + 1) * sy = j' * sy + sy := by ring
    omega
  have h3 : (i * sx + a) * y + (j * sy + b) = (i' * sx + a') * y + (j' * sy + b') := by omega
  obtain ⟨hr, hcc⟩ := mul_add_unique hc hc' h3
  obtain ⟨hi, haa⟩ := mul_add_unique ha ha' hr
  obtain ⟨hjj, hbb⟩ := mul_add_unique hb hb' hcc
  exact ⟨hi, hjj, haa, hbb⟩

theorem with_writes_x (im : ppm_image) (ws : List (Int × ppm_pixel)) :
    (with_writes im ws).x = im.x := rfl

theorem with_writes_y (im : ppm_image) (ws : List (Int × ppm_pixel)) :
    (with_writes im ws).y = im.y := rfl

theorem with_writes_nil (im : ppm_image) : with_writes im [] = im := rfl

theorem with_writes_append (im : ppm_image) (ws vs : List (Int × ppm_pixel)) :
    with_writes (with_writes im ws) vs = with_writes im (ws ++ vs) := by
  simp [with_writes, apply_writes_append]

/-- A loop of single pixel stores whose index depends on the line length. -/
theorem foldl_pixel_store {γ : Type} (l : List γ) (k : Nat → γ → Int) (v : γ → ppm_pixel)
    (im : ppm_image) :
    l.foldl (fun im a => { im with data := mem_set im.data (k im.y a) (v a) }) im
      = with_writes im (l.map fun a => (k im.y a, v a)) := by
  induction l generalizing im with
  | nil => rfl
  | cons a l ih =>
    rw [List.foldl_cons, ih]
    rfl

/-- A loop whose body performs pixel stores that depend on the line length. -/
theorem foldl_with_writes {γ : Type} (l : List γ) (f : Nat → γ → List (Int × ppm_pixel))
    (im : ppm_image) :
    l.foldl (fun im a => with_writes im (f im.y a)) im = with_writes im (l.flatMap (f im.y)) := by
  induction l generalizing im with
  | nil => rfl
  | cons a l ih =>
    rw [List.foldl_cons, ih, with_writes_y, with_writes_append, List.flatMap_cons]

/-- The function `update_image` performs the stores of `update_image_writes`. -/
theorem update_image_eq (image contour : ppm_image) (x y : Nat) :
    update_image image contour x y
      = with_writes image (update_image_writes image.y contour x y) := by
  unfold update_image update_image_writes
  have inner : ∀ (im : ppm_image) (i : Nat),
      (List.range contour.y).foldl (fun im j =>
        { im with data := mem_set im.data (image_pixel_index im.y x y i j)
                            (contour.data (contour_pixel_index contour i j)) }) im
      = with_writes im ((List.range contour.y).map fun j =>
          (image_pixel_index im.y x y i j, contour.data (contour_pixel_index contour i j))) :=
    fun im i => foldl_pixel_store (List.range contour.y)
      (fun iy j => image_pixel_index iy x y i j)
      (fun j => contour.data (contour_pixel_index contour i j)) im
  simp only [inner]
  exact foldl_with_writes (List.range contour.x)
    (fun iy i => (List.range contour.y).map fun j =>
      (image_pixel_index iy x y i j, contour.data (contour_pixel_index contour i j))) image

theorem working_set_working (d : data) (im : ppm_image) : working (set_working d im) = im := by
  unfold working set_working
  cases h : d.scaled_image <;> simp [h]

theorem set_working_working (d : data) : set_working d (working d) = d := by
  obtain ⟨i, c, n, s, sx, sy, g, ga, na⟩ := d
  cases s <;> rfl

theorem set_working_set_working (d : data) (im im' : ppm_image) :
    set_working (set_working d im) im' = set_working d im' := by
  unfold set_working
  cases h : d.scaled_image <;> simp [h]

theorem set_working_frame (d : data) (im : ppm_image) :
    (set_working d im).grid = d.grid ∧ (set_working d im).contour_map = d.contour_map ∧
    (set_working d im).step_x = d.step_x ∧ (set_working d im).step_y = d.step_y ∧
    (set_working d im).scaled_image = d.scaled_image ∧
    (set_working d im).grid_alloc = d.grid_alloc ∧
    (set_working d im).new_image_alloc = d.new_image_alloc := by
  unfold set_working
  cases h : d.scaled_image <;> simp [h]

/-- The function `march` performs the stores of `march_writes`. -/
theorem march_eq (t : thread_data) (d : data) :
    march t d = set_working d (with_writes (working d)
      (march_writes d.grid d.contour_map d.step_x d.step_y (working d).x (working d).y t)) := by
  unfold march march_writes
  simp only [update_image_eq]
  congr 1
  have inner : ∀ (im : ppm_image) (i : Nat),
      (List.range ((working d).y / d.step_y)).foldl (fun im j =>
        with_writes im (update_image_writes im.y (d.contour_map (cell_index d.grid i j))
          (i * d.step_x) (j * d.step_y))) im
      = with_writes im ((List.range ((working d).y / d.step_y)).flatMap fun j =>
          update_image_writes im.y (d.contour_map (cell_index d.grid i j))
            (i * d.step_x) (j * d.step_y)) :=
    fun im i => foldl_with_writes (List.range ((working d).y / d.step_y))
      (fun iy j => update_image_writes iy (d.contour_map (cell_index d.grid i j))
        (i * d.step_x) (j * d.step_y)) im
  simp only [inner]
  exact foldl_with_writes _
    (fun iy i => (List.range ((working d).y / d.step_y)).flatMap fun j =>
      update_image_writes iy (d.contour_map (cell_index d.grid i j)) (i * d.step_x) (j * d.step_y))
    (working d)

/-- A marching phase performs the stores of its workers, one worker after the other. -/
theorem march_phase_eq (P : Nat) (order : List Nat) (d : data) :
    march_phase P order d = set_working d (with_writes (working d)
      (order.flatMap fun id =>
        march_writes d.grid d.contour_map d.step_x d.step_y (working d).x (working d).y ⟨id, P⟩)) := by
  unfold march_phase run_phase
  induction order generalizing d with
  | nil =>
    simp only [List.foldl_nil, List.flatMap_nil, with_writes_nil, set_working_working]
  | cons id rest ih =>
    rw [List.foldl_cons, ih, march_eq]
    obtain ⟨h1, h2, h3, h4, _⟩ := set_working_frame d (with_writes (working d)
      (march_writes d.grid d.contour_map d.step_x d.step_y (working d).x (working d).y ⟨id, P⟩))
    rw [h1, h2, h3, h4, working_set_working, set_working_set_working, with_writes_x,
      with_writes_y, with_writes_append, List.flatMap_cons]

theorem contour_index_lt {a b c d : Nat} (ha : a ≤ 1) (hb : b ≤ 1) (hc : c ≤ 1) (hd : d ≤ 1) :
    contour_index a b c d < 16 := by
  unfold contour_index
  omega

/-- On a grid of zeros and ones every cell selects one of the 16 tiles. -/
theorem cell_index_lt {grid : Nat × Nat → Nat} {p q i j : Nat}
    (hg : ∀ i j, i ≤ p → j ≤ q → grid (i, j) ≤ 1) (hi : i < p) (hj : j < q) :
    cell_index grid i j < CONTOUR_CONFIG_COUNT :=
  contour_index_lt (hg i j (by omega) (by omega)) (hg i (j + 1) (by omega) (by omega))
    (hg (i + 1) (j + 1) (by omega) (by omega)) (hg (i + 1) j (by omega) (by omega))

/-- The stores of one worker of `march`, spelled out. -/
theorem mem_march_writes {grid : Nat × Nat → Nat} {cm : Nat → ppm_image}
    {sx sy ix iy : Nat} {t : thread_data} {w : Int × ppm_pixel} :
    w ∈ march_writes grid cm sx sy ix iy t ↔
      ∃ i, (range_start t.thread_id (ix / sx) t.no_threads ≤ i ∧
            i < range_end t.thread_id (ix / sx) t.no_threads) ∧
        ∃ j, j < iy / sy ∧
          ∃ a, a < (cm (cell_index grid i j)).x ∧
            ∃ b, b < (cm (cell_index grid i j)).y ∧
              (image_pixel_index iy (i * sx) (j * sy) a b,
                (cm (cell_index grid i j)).data
                  (contour_pixel_index (cm (cell_index grid i j)) a b)) = w := by
  simp only [march_writes, update_image_writes, List.mem_flatMap, List.mem_map, List.mem_range,
    List.mem_range'_1]
  constructor
  · rintro ⟨i, ⟨h1, h2⟩, j, hj, a, ha, b, hb, rfl⟩
    exact ⟨i, ⟨h1, by omega⟩, j, hj, a, ha, b, hb, rfl⟩
  · rintro ⟨i, ⟨h1, h2⟩, j, hj, a, ha, b, hb, rfl⟩
    exact ⟨i, ⟨h1, by omega⟩, j, hj, a, ha, b, hb, rfl⟩

/-- With tiles of `step_x × step_y` pixels and a grid of zeros and ones, every
store of a worker `id < P` copies pixel `(a, b)` of the tile of a cell
`(i, j)` of the worker's range to the pixel `(a, b)` of the block of that cell. -/
theorem march_writes_sound {grid : Nat × Nat → Nat} {cm : Nat → ppm_image}
    {sx sy ix iy P id : Nat} (hP : 1 ≤ P) (hid : id < P)
    (htiles : ∀ k, k < CONTOUR_CONFIG_COUNT → (cm k).x = sx ∧ (cm k).y = sy)
    (hg : ∀ i j, i ≤ ix / sx → j ≤ iy / sy → grid (i, j) ≤ 1)
    {w : Int × ppm_pixel} (hw : w ∈ march_writes grid cm sx sy ix iy ⟨id, P⟩) :
    ∃ i j a b, range_start id (ix / sx) P ≤ i ∧ i < range_end id (ix / sx) P ∧ i < ix / sx ∧
      j < iy / sy ∧ a < sx ∧ b < sy ∧
      w.1 = image_pixel_index iy (i * sx) (j * sy) a b ∧
      w.2 = (cm (cell_index grid i j)).data (contour_pixel_index (cm (cell_index grid i j)) a b) := by
  obtain ⟨i, ⟨h1, h2⟩, j, hj, a, ha, b, hb, rfl⟩ := mem_march_writes.mp hw
  have hend := range_end_le (ix / sx) hP id hid
  simp only at h1 h2 hend
  have hi : i < ix / sx := by omega
  have hk := htiles _ (cell_index_lt hg hi hj)
  exact ⟨i, j, a, b, h1, h2, hi, hj, by omega, by omega, rfl, rfl⟩

/-- Every pixel of every block is stored to by the worker whose range holds
the line of the block. -/
theorem march_writes_complete {grid : Nat × Nat → Nat} {cm : Nat → ppm_image}
    {sx sy ix iy P : Nat} (hP : 1 ≤ P)
    (htiles : ∀ k, k < CONTOUR_CONFIG_COUNT → (cm k).x = sx ∧ (cm k).y = sy)
    (hg : ∀ i j, i ≤ ix / sx → j ≤ iy / sy → grid (i, j) ≤ 1)
    {i j a b : Nat} (hi : i < ix / sx) (hj : j < iy / sy) (ha : a < sx) (hb : b < sy) :
    ∃ id, id < P ∧ range_start id (ix / sx) P ≤ i ∧ i < range_end id (ix / sx) P ∧
      (image_pixel_index iy (i * sx) (j * sy) a b,
        (cm (cell_index grid i j)).data (contour_pixel_index (cm (cell_index grid i j)) a b))
        ∈ march_writes grid cm sx sy ix iy ⟨id, P⟩ := by
  obtain ⟨id, hid, hs, he⟩ := range_cover (ix / sx) hP hi
  have hk := htiles _ (cell_index_lt hg hi hj)
  exact ⟨id, hid, hs, he, mem_march_writes.mpr
    ⟨i, ⟨hs, he⟩, j, hj, a, by omega, b, by omega, rfl⟩⟩

/-- Two stores of a marching phase to the same pixel store the same value. -/
theorem march_writes_functional {grid : Nat × Nat → Nat} {cm : Nat → ppm_image}
    {sx sy ix iy P id id' : Nat} (hP : 1 ≤ P) (hid : id < P) (hid' : id' < P)
    (htiles : ∀ k, k < CONTOUR_CONFIG_COUNT → (cm k).x = sx ∧ (cm k).y = sy)
    (hg : ∀ i j, i ≤ ix / sx → j ≤ iy / sy → grid (i, j) ≤ 1)
    {w w' : Int × ppm_pixel} (hw : w ∈ march_writes grid cm sx sy ix iy ⟨id, P⟩)
    (hw' : w' ∈ march_writes grid cm sx sy ix iy ⟨id', P⟩) (h : w.1 = w'.1) : w.2 = w'.2 := by
  obtain ⟨i, j, a, b, _, _, _, hj, ha, hb, h1, h2⟩ := march_writes_sound hP hid htiles hg hw
  obtain ⟨i', j', a', b', _, _, _, hj', ha', hb', h1', h2'⟩ :=
    march_writes_sound hP hid' htiles hg hw'
  rw [h1, h1'] at h
  obtain ⟨rfl, rfl, rfl, rfl⟩ := image_pixel_index_inj hj hj' ha ha' hb hb' h
  rw [h2, h2']

/-! ## The phases as a whole -/

/-- A sampling phase in which every worker `id < P` ran leaves `sampled_grid`
and changes nothing else. -/
theorem sample_phase_full (P : Nat) (hP : 1 ≤ P) (order : List Nat)
    (hlt : ∀ id ∈ order, id < P) (hall : ∀ id, id < P → id ∈ order) (d : data) :
    sample_phase P order d =
      { d with grid := sampled_grid (working d) d.step_x d.step_y d.grid } := by
  have h : (sample_phase P order d).grid = sampled_grid (working d) d.step_x d.step_y d.grid :=
    funext fun c => sample_phase_grid P hP order hlt hall d c
  rw [sample_phase_eq] at h ⊢
  simp only at h
  rw [h]

theorem sample_value_le_one (px : ppm_pixel) : sample_value px ≤ 1 := by
  unfold sample_value
  split <;> omega

theorem sample_expected_le_one (im : ppm_image) (sx sy : Nat) (c : Nat × Nat) :
    sample_expected im sx sy c ≤ 1 := by
  unfold sample_expected
  simp only
  split
  · exact sample_value_le_one _
  · split
    · exact sample_value_le_one _
    · split
      · exact sample_value_le_one _
      · omega

/-- A sampled grid holds zeros and ones. -/
theorem sampled_grid_binary (im : ppm_image) (sx sy : Nat) (g : Nat × Nat → Nat) :
    ∀ i j, i ≤ im.x / sx → j ≤ im.y / sy → sampled_grid im sx sy g (i, j) ≤ 1 := by
  intro i j hi hj
  simp only [sampled_grid, hi, hj, and_self, if_true]
  exact sample_expected_le_one _ _ _ _

/-- After a marching phase in which every worker `id < P` ran, pixel `(a, b)`
of the block of cell `(i, j)` is the pixel the code reads from the tile of the
cell. -/
theorem march_phase_stamped (P : Nat) (hP : 1 ≤ P) (order : List Nat)
    (hlt : ∀ id ∈ order, id < P) (hall : ∀ id, id < P → id ∈ order) (d : data)
    (htiles : ∀ k, k < CONTOUR_CONFIG_COUNT →
      (d.contour_map k).x = d.step_x ∧ (d.contour_map k).y = d.step_y)
    (hg : ∀ i j, i ≤ (working d).x / d.step_x → j ≤ (working d).y / d.step_y → d.grid (i, j) ≤ 1)
    {i j a b : Nat} (hi : i < (working d).x / d.step_x) (hj : j < (working d).y / d.step_y)
    (ha : a < d.step_x) (hb : b < d.step_y) :
    (working (march_phase P order d)).data
        (image_pixel_index (working d).y (i * d.step_x) (j * d.step_y) a b)
      = (d.contour_map (cell_index d.grid i j)).data
          (contour_pixel_index (d.contour_map (cell_index d.grid i j)) a b) := by
  rw [march_phase_eq, working_set_working]
  show apply_writes (working d).data _ _ = _
  obtain ⟨id0, hid0, _, _, hmem⟩ := march_writes_complete (P := P) hP htiles hg hi hj ha hb
  apply apply_writes_touched
  · intro w hw hwc
    obtain ⟨id, hid, hw'⟩ := List.mem_flatMap.mp hw
    exact march_writes_functional hP (hlt id hid) hid0 htiles hg hw' hmem hwc
  · exact ⟨_, List.mem_flatMap.mpr ⟨id0, hall id0 hid0, hmem⟩, rfl⟩

/-- A marching phase leaves every pixel outside the blocks as it was. -/
theorem march_phase_untouched (P : Nat) (hP : 1 ≤ P) (order : List Nat)
    (hlt : ∀ id ∈ order, id < P) (d : data)
    (htiles : ∀ k, k < CONTOUR_CONFIG_COUNT →
      (d.contour_map k).x = d.step_x ∧ (d.contour_map k).y = d.step_y)
    (hg : ∀ i j, i ≤ (working d).x / d.step_x → j ≤ (working d).y / d.step_y → d.grid (i, j) ≤ 1)
    (z : Int)
    (hz : ∀ i j a b, i < (working d).x / d.step_x → j < (working d).y / d.step_y →
      a < d.step_x → b < d.step_y →
      z ≠ image_pixel_index (working d).y (i * d.step_x) (j * d.step_y) a b) :
    (working (march_phase P order d)).data z = (working d).data z := by
  rw [march_phase_eq, working_set_working]
  show apply_writes (working d).data _ _ = _
  apply apply_writes_untouched
  intro w hw hwc
  obtain ⟨id, hid, hw'⟩ := List.mem_flatMap.mp hw
  obtain ⟨i, j, a, b, _, _, hi, hj, ha, hb, h1, _⟩ :=
    march_writes_sound hP (hlt id hid) htiles hg hw'
  exact hz i j a b hi hj ha hb (hwc.symm.trans h1)

/-- A marching phase changes nothing but the pixels of the working bitmap. -/
theorem march_phase_frame (P : Nat) (order : List Nat) (d : data) :
    (march_phase P order d).grid = d.grid ∧
    (march_phase P order d).contour_map = d.contour_map ∧
    (march_phase P order d).step_x = d.step_x ∧
    (march_phase P order d).step_y = d.step_y ∧
    (march_phase P order d).scaled_image = d.scaled_image ∧
    (working (march_phase P order d)).x = (working d).x ∧
    (working (march_phase P order d)).y = (working d).y := by
  rw [march_phase_eq, working_set_working]
  obtain ⟨h1, h2, h3, h4, h5, _⟩ := set_working_frame d (with_writes (working d)
    (order.flatMap fun id =>
      march_writes d.grid d.contour_map d.step_x d.step_y (working d).x (working d).y ⟨id, P⟩))
  exact ⟨h1, h2, h3, h4, h5, rfl, rfl⟩

/-- With tiles of `step_x × step_y` pixels and a grid of zeros and ones, a
marching phase of `P` workers in any order leaves what one worker alone
leaves. -/
theorem march_phase_single (P : Nat) (hP : 1 ≤ P) (order : List Nat)
    (hlt : ∀ id ∈ order, id < P) (hall : ∀ id, id < P → id ∈ order) (d : data)
    (htiles : ∀ k, k < CONTOUR_CONFIG_COUNT →
      (d.contour_map k).x = d.step_x ∧ (d.contour_map k).y = d.step_y)
    (hg : ∀ i j, i ≤ (working d).x / d.step_x → j ≤ (working d).y / d.step_y → d.grid (i, j) ≤ 1) :
    march_phase P order d = march_phase 1 [0] d := by
  rw [march_phase_eq, march_phase_eq]
  congr 1
  unfold with_writes
  congr 1
  apply apply_writes_congr
  · intro w
    constructor
    · intro hw
      obtain ⟨id, hid, hw'⟩ := List.mem_flatMap.mp hw
      obtain ⟨i, j, a, b, _, _, hi, hj, ha, hb, h1, h2⟩ :=
        march_writes_sound hP (hlt id hid) htiles hg hw'
      obtain ⟨id0, hid0, _, _, hmem⟩ :=
        march_writes_complete (P := 1) (le_refl 1) htiles hg hi hj ha hb
      have hid00 : id0 = 0 := by omega
      subst hid00
      have hw_eq : w = (w.1, w.2) := rfl
      rw [hw_eq, h1, h2]
      exact List.mem_flatMap.mpr ⟨0, List.mem_singleton.mpr rfl, hmem⟩
    · intro hw
      obtain ⟨id, hid, hw'⟩ := List.mem_flatMap.mp hw
      have hid0 : id = 0 := List.mem_singleton.mp hid
      subst hid0
      obtain ⟨i, j, a, b, _, _, hi, hj, ha, hb, h1, h2⟩ :=
        march_writes_sound (le_refl 1) (by omega : 0 < 1) htiles hg hw'
      obtain ⟨id0, hid0, _, _, hmem⟩ :=
        march_writes_complete (P := P) hP htiles hg hi hj ha hb
      have hw_eq : w = (w.1, w.2) := rfl
      rw [hw_eq, h1, h2]
      exact List.mem_flatMap.mpr ⟨id0, hall id0 hid0, hmem⟩
  · intro w hw w' hw' h
    obtain ⟨id, hid, hw1⟩ := List.mem_flatMap.mp hw
    obtain ⟨id', hid', hw1'⟩ := List.mem_flatMap.mp hw'
    exact march_writes_functional hP (hlt id hid) (hlt id' hid') htiles hg hw1 hw1' h

/-! ## Claims on the sampling and marching phases -/

/-- On one and the same memory, bitmap and everything next to it, the
sampling phase of all `P` workers in any order followed by the marching phase
of all `P` workers in any order leaves the same state as sampling then
marching with one worker (tiles of `step_x × step_y` pixels). -/
theorem phases_on_same_memory (P : Nat) (hP : 1 ≤ P) (s_order m_order : List Nat)
    (hs : s_order.Perm (List.range P)) (hm : m_order.Perm (List.range P)) (d : data)
    (htiles : ∀ k, k < CONTOUR_CONFIG_COUNT →
      (d.contour_map k).x = d.step_x ∧ (d.contour_map k).y = d.step_y) :
    march_phase P m_order (sample_phase P s_order d)
      = march_phase 1 [0] (sample_phase 1 [0] d) := by
  rw [sample_phase_full P hP s_order (perm_range_lt hs) (perm_range_mem hs) d,
    sample_phase_full 1 (le_refl 1) [0] (by simp) (by simp) d]
  exact march_phase_single P hP m_order (perm_range_lt hm) (perm_range_mem hm) _ htiles
    (sampled_grid_binary (working d) d.step_x d.step_y d.grid)

/-- C6: the tile index `8a + 4b + 2c + d` of `march`, on corner bits, stays
in `[0, 15]`, is injective, reaches every value of `[0, 15]`, is 0 for
all-zero corners and 15 for all-one corners; the corners are taken in the
order `grid[i][j]`, `grid[i][j+1]`, `grid[i+1][j+1]`, `grid[i+1][j]`. -/
theorem C6_contour_index_bijection :
    (∀ a b c d, a ≤ 1 → b ≤ 1 → c ≤ 1 → d ≤ 1 → contour_index a b c d ≤ 15) ∧
    (∀ a b c d a' b' c' d', a ≤ 1 → b ≤ 1 → c ≤ 1 → d ≤ 1 → a' ≤ 1 → b' ≤ 1 → c' ≤ 1 → d' ≤ 1 →
      contour_index a b c d = contour_index a' b' c' d' → a = a' ∧ b = b' ∧ c = c' ∧ d = d') ∧
    (∀ k, k ≤ 15 → ∃ a b c d, a ≤ 1 ∧ b ≤ 1 ∧ c ≤ 1 ∧ d ≤ 1 ∧ contour_index a b c d = k) ∧
    contour_index 0 0 0 0 = 0 ∧ contour_index 1 1 1 1 = 15 ∧
    (∀ (grid : Nat × Nat → Nat) i j, cell_index grid i j =
      contour_index (grid (i, j)) (grid (i, j + 1)) (grid (i + 1, j + 1)) (grid (i + 1, j))) := by
  refine ⟨?_, ?_, ?_, by decide, by decide, fun _ _ _ => rfl⟩
  · intro a b c d ha hb hc hd
    unfold contour_index
    omega
  · intro a b c d a' b' c' d' ha hb hc hd ha' hb' hc' hd' h
    unfold contour_index at h
    omega
  · intro k hk
    refine ⟨k / 8, k / 4 % 2, k / 2 % 2, k % 2, ?_, ?_, ?_, ?_, ?_⟩
    · omega
    · omega
    · omega
    · omega
    · unfold contour_index
      omega

/-- On a grid of zeros and ones the tile index of a cell is the number
`8a + 4b + 2c + d` of its corners: the conversion to `unsigned char` loses
nothing. -/
theorem cell_index_eq {grid : Nat × Nat → Nat} {p q i j : Nat}
    (hg : ∀ i j, i ≤ p → j ≤ q → grid (i, j) ≤ 1) (hi : i < p) (hj : j < q) :
    cell_index grid i j
      = 8 * grid (i, j) + 4 * grid (i, j + 1) + 2 * grid (i + 1, j + 1) + grid (i + 1, j) := by
  have h1 := hg i j (by omega) (by omega)
  have h2 := hg i (j + 1) (by omega) (by omega)
  have h3 := hg (i + 1) (j + 1) (by omega) (by omega)
  have h4 := hg (i + 1) j (by omega) (by omega)
  unfold cell_index contour_index
  omega

/-- C7: with square steps (8 in the program), tiles of `step_x × step_y`
pixels and a sampled grid (zeros and ones), after `march` has run for all
workers `0..P-1`, in any order, the pixel
`data[(i * step_x + a) * y + j * step_y + b]` of the working bitmap is pixel
`(a, b)` of tile `k`, where
`k = 8 * grid[i][j] + 4 * grid[i][j+1] + 2 * grid[i+1][j+1] + grid[i+1][j]`,
for every cell `i < p`, `j < q` and every offset `a < step_x`, `b < step_y`. -/
theorem C7_march_stamps_tiles (P : Nat) (hP : 1 ≤ P) (order : List Nat)
    (horder : order.Perm (List.range P)) (d : data) (hsq : d.step_x = d.step_y)
    (htiles : ∀ k, k < CONTOUR_CONFIG_COUNT →
      (d.contour_map k).x = d.step_x ∧ (d.contour_map k).y = d.step_y)
    (hgrid : ∀ i j, i ≤ (working d).x / d.step_x → j ≤ (working d).y / d.step_y →
      d.grid (i, j) ≤ 1)
    (i j a b : Nat) (hi : i < (working d).x / d.step_x) (hj : j < (working d).y / d.step_y)
    (ha : a < d.step_x) (hb : b < d.step_y) :
    (working (march_phase P order d)).data
        (((i * d.step_x + a) * (working d).y + j * d.step_y + b : Nat) : Int)
      = (d.contour_map
          (8 * d.grid (i, j) + 4 * d.grid (i, j + 1) + 2 * d.grid (i + 1, j + 1)
            + d.grid (i + 1, j))).data
          ((a * d.step_y + b : Nat) : Int) := by
  have h := march_phase_stamped P hP order (perm_range_lt horder) (perm_range_mem horder) d
    htiles hgrid hi hj ha hb
  have hk := htiles _ (cell_index_lt hgrid hi hj)
  unfold image_pixel_index contour_pixel_index at h
  rw [h, hk.1, hsq, Nat.mul_comm d.step_y a, cell_index_eq hgrid hi hj]

theorem C7_march_stamps_tiles_witness :
    [1, 0].Perm (List.range 2) ∧
    marching_input.grid (0, 1) = 1 ∧ marching_input.grid (0, 1 + 1) = 0 ∧
    marching_input.grid (0 + 1, 1 + 1) = 1 ∧ marching_input.grid (0 + 1, 1) = 0 ∧
    (working (march_phase 2 [1, 0] marching_input)).data
        (((0 * 8 + 3) * 16 + 1 * 8 + 4 : Nat) : Int)
      = (marching_input.contour_map
          (8 * marching_input.grid (0, 1) + 4 * marching_input.grid (0, 1 + 1)
            + 2 * marching_input.grid (0 + 1, 1 + 1) + marching_input.grid (0 + 1, 1))).data
          ((3 * 8 + 4 : Nat) : Int) :=
  ⟨by decide, by decide, by decide, by decide, by decide,
    C7_march_stamps_tiles 2 (by decide) [1, 0] (by decide) marching_input rfl
      (fun _ _ => ⟨rfl, rfl⟩)
      (fun i j _ _ => Nat.le_of_lt_succ (Nat.mod_lt (i + j) (by decide)))
      0 1 3 4 (by decide) (by decide) (by decide) (by decide)⟩

theorem C3_interior_cells_witness :
    [1, 0].Perm (List.range 2) ∧
    (sample_phase 2 [1, 0] (state_of c4_bitmap)).grid (0, 1) =
      if luminance ((working (state_of c4_bitmap)).data
          (((0 * (state_of c4_bitmap).step_x * (working (state_of c4_bitmap)).y
            + 1 * (state_of c4_bitmap).step_y : Nat) : Int))) ≤ 200
      then 1 else 0 :=
  ⟨by decide,
    C3_interior_cells 2 (by decide) [1, 0] (by decide) (state_of c4_bitmap) 0 1
      (by decide) (by decide)⟩

/-- What the code leaves in the last column, the last line and the corner of
the grid: the samples at `column_index`, at `line_index`, and 0. -/
theorem sample_phase_border (P : Nat) (hP : 1 ≤ P) (order : List Nat)
    (horder : order.Perm (List.range P)) (d : data) :
    (∀ i, i < (working d).x / d.step_x →
      (sample_phase P order d).grid (i, (working d).y / d.step_y) =
        if luminance ((working d).data
            (column_index d.step_x (working d).x (working d).y i)) ≤ 200 then 1 else 0) ∧
    (∀ j, j < (working d).y / d.step_y →
      (sample_phase P order d).grid ((working d).x / d.step_x, j) =
        if luminance ((working d).data
            (line_index d.step_y (working d).x (working d).y j)) ≤ 200 then 1 else 0) ∧
    (sample_phase P order d).grid ((working d).x / d.step_x, (working d).y / d.step_y) = 0 := by
  refine ⟨fun i hi => ?_, fun j hj => ?_, ?_⟩
  · rw [sample_phase_grid P hP order (perm_range_lt horder) (perm_range_mem horder) d]
    have h1 : i ≤ (working d).x / d.step_x := by omega
    simp [h1, sample_expected, hi, sample_value_eq]
  · rw [sample_phase_grid P hP order (perm_range_lt horder) (perm_range_mem horder) d]
    have h1 : j ≤ (working d).y / d.step_y := by omega
    simp [h1, sample_expected, hj, sample_value_eq]
  · rw [sample_phase_grid P hP order (perm_range_lt horder) (perm_range_mem horder) d]
    simp [sample_expected]

/-- C4, at a bitmap of 8 lines of 16 pixels whose pixel 7 alone is dark:
`grid[0][q]` is sampled at index `0 * 8 * 16 + x - 1 = 7`, in the middle of
line 0, and is 1; the last pixel of line 0, `data[0 * 8 * 16 + (y - 1)]`, is
white and thresholds to 0. -/
theorem C4_last_column_sampled_at_x :
    (working (state_of c4_bitmap)).x = 8 ∧ (working (state_of c4_bitmap)).y = 16 ∧
    column_index (state_of c4_bitmap).step_x 8 16 0 = 7 ∧
    (sample_phase 1 [0] (state_of c4_bitmap)).grid (0, 16 / 8) = 1 ∧
    (if luminance ((working (state_of c4_bitmap)).data
        (((0 * 8 * 16 + (16 - 1) : Nat) : Int))) ≤ 200 then 1 else 0) = 0 := by
  decide

/-- C5, at the uniform white bitmap of 16 lines of 1 pixel: the cell
`grid[1][q]` of the last column is sampled at index `1 * 8 * 1 + x - 1 = 23`,
past the 16 pixels of the bitmap, and holds what lies there, not the 0 of a
white pixel. -/
theorem C5_uniform_bitmap_read_outside :
    (∀ z : Int, 0 ≤ z → z < ((c5_bitmap.x * c5_bitmap.y : Nat) : Int) →
      c5_bitmap.data z = white) ∧
    200 < luminance white ∧
    (working (state_of c5_bitmap)).x / (state_of c5_bitmap).step_x = 2 ∧
    (working (state_of c5_bitmap)).y / (state_of c5_bitmap).step_y = 0 ∧
    column_index (state_of c5_bitmap).step_x 16 1 1 = 23 ∧
    (sample_phase 1 [0] (state_of c5_bitmap)).grid (1, 0) = 1 := by
  refine ⟨?_, by decide, by decide, by decide, by decide, by decide⟩
  intro z h0 h1
  simp only [c5_bitmap, bitmap]
  rw [if_pos ⟨h0, h1⟩]

/-- With tiles of `step_x × step_y` pixels and a grid of zeros and ones, the
stores of two workers of `march` that meet in a pixel come from one worker. -/
theorem march_indices_disjoint {P : Nat} (hP : 1 ≤ P) (d : data)
    (htiles : ∀ k, k < CONTOUR_CONFIG_COUNT →
      (d.contour_map k).x = d.step_x ∧ (d.contour_map k).y = d.step_y)
    (hg : ∀ i j, i ≤ (working d).x / d.step_x → j ≤ (working d).y / d.step_y → d.grid (i, j) ≤ 1)
    {a b : Nat} (ha : a < P) (hb : b < P) {z : Int}
    (hza : z ∈ march_indices ⟨a, P⟩ d) (hzb : z ∈ march_indices ⟨b, P⟩ d) : a = b := by
  obtain ⟨w, hw, rfl⟩ := List.mem_map.mp hza
  obtain ⟨w', hw', hww⟩ := List.mem_map.mp hzb
  obtain ⟨i, j, u, v, hs, he, _, hj, hu, hv, h1, _⟩ := march_writes_sound hP ha htiles hg hw
  obtain ⟨i', j', u', v', hs', he', _, hj', hu', hv', h1', _⟩ :=
    march_writes_sound hP hb htiles hg hw'
  rw [h1, h1'] at hww
  obtain ⟨rfl, _, _, _⟩ := image_pixel_index_inj hj' hj hu' hu hv' hv hww
  exact range_disjoint _ hP ha hb ⟨hs, he⟩ ⟨hs', he'⟩

/-- Every pixel a worker of `march` stores to lies on a line of its own range
of blocks. -/
theorem march_indices_lines {P : Nat} (hP : 1 ≤ P) (d : data)
    (htiles : ∀ k, k < CONTOUR_CONFIG_COUNT →
      (d.contour_map k).x = d.step_x ∧ (d.contour_map k).y = d.step_y)
    (hg : ∀ i j, i ≤ (working d).x / d.step_x → j ≤ (working d).y / d.step_y → d.grid (i, j) ≤ 1)
    {id : Nat} (hid : id < P) {z : Int} (hz : z ∈ march_indices ⟨id, P⟩ d) :
    ∃ r c, range_start id ((working d).x / d.step_x) P * d.step_x ≤ r ∧
      r < range_end id ((working d).x / d.step_x) P * d.step_x ∧
      c < (working d).y ∧ z = ((r * (working d).y + c : Nat) : Int) := by
  obtain ⟨w, hw, rfl⟩ := List.mem_map.mp hz
  obtain ⟨i, j, u, v, hs, he, _, hj, hu, hv, h1, _⟩ := march_writes_sound hP hid htiles hg hw
  have hjy := succ_mul_le_of_lt_div hj
  have e1 : (j + 1) * d.step_y = j * d.step_y + d.step_y := by ring
  have hlo : range_start id ((working d).x / d.step_x) P * d.step_x ≤ i * d.step_x :=
    Nat.mul_le_mul_right _ hs
  have hhi : (i + 1) * d.step_x ≤ range_end id ((working d).x / d.step_x) P * d.step_x :=
    Nat.mul_le_mul_right _ he
  have e2 : (i + 1) * d.step_x = i * d.step_x + d.step_x := by ring
  refine ⟨i * d.step_x + u, j * d.step_y + v, by omega, by omega, by omega, ?_⟩
  rw [h1]
  unfold image_pixel_index
  congr 1
  omega

/-- A worker of `march` leaves every pixel outside `march_indices` as it was. -/
theorem march_frame (t : thread_data) (d : data) (z : Int) (hz : z ∉ march_indices t d) :
    (working (march t d)).data z = (working d).data z := by
  rw [march_eq, working_set_working]
  show apply_writes (working d).data _ z = _
  apply apply_writes_untouched
  intro w hw hwz
  exact hz (List.mem_map.mpr ⟨w, hw, hwz⟩)

/-- C8: with tiles of `step_x × step_y` pixels (8 x 8 in the program), on the
state a sampling phase leaves, the pixel indices two distinct workers store to
during `march` are disjoint; the indices of worker `id` lie on the lines
`[start * step_x, end * step_x)` of the bitmap, `[start, end)` being the range
`sample_grid` uses for `id`; and a worker changes no pixel outside its indices. -/
theorem C8_march_writes_disjoint (P : Nat) (hP : 1 ≤ P) (s_order : List Nat)
    (hs : s_order.Perm (List.range P)) (d : data)
    (htiles : ∀ k, k < CONTOUR_CONFIG_COUNT →
      (d.contour_map k).x = d.step_x ∧ (d.contour_map k).y = d.step_y) :
    (∀ a b, a < P → b < P → a ≠ b → ∀ z,
      z ∈ march_indices ⟨a, P⟩ (sample_phase P s_order d) →
      z ∉ march_indices ⟨b, P⟩ (sample_phase P s_order d)) ∧
    (∀ id, id < P → ∀ z, z ∈ march_indices ⟨id, P⟩ (sample_phase P s_order d) →
      ∃ r c, range_start id ((working d).x / d.step_x) P * d.step_x ≤ r ∧
        r < range_end id ((working d).x / d.step_x) P * d.step_x ∧
        c < (working d).y ∧ z = ((r * (working d).y + c : Nat) : Int)) ∧
    (∀ id z, z ∉ march_indices ⟨id, P⟩ (sample_phase P s_order d) →
      (working (march ⟨id, P⟩ (sample_phase P s_order d))).data z
        = (working (sample_phase P s_order d)).data z) := by
  have hfull := sample_phase_full P hP s_order (perm_range_lt hs) (perm_range_mem hs) d
  have hbin := sampled_grid_binary (working d) d.step_x d.step_y d.grid
  rw [hfull]
  refine ⟨?_, ?_, ?_⟩
  · intro a b ha hb hab z hza hzb
    exact hab (march_indices_disjoint hP
      { d with grid := sampled_grid (working d) d.step_x d.step_y d.grid } htiles hbin ha hb
      hza hzb)
  · intro id hid z hz
    exact march_indices_lines hP
      { d with grid := sampled_grid (working d) d.step_x d.step_y d.grid } htiles hbin hid hz
  · intro id z hz
    exact march_frame _ _ z hz

theorem C8_march_writes_disjoint_witness :
    1 ≤ 2 ∧ [1, 0].Perm (List.range 2) ∧
    ((∀ a b, a < 2 → b < 2 → a ≠ b → ∀ z,
      z ∈ march_indices ⟨a, 2⟩ (sample_phase 2 [1, 0] c8_state) →
      z ∉ march_indices ⟨b, 2⟩ (sample_phase 2 [1, 0] c8_state)) ∧
    (∀ id, id < 2 → ∀ z,
      z ∈ march_indices ⟨id, 2⟩ (sample_phase 2 [1, 0] c8_state) →
      ∃ r c, range_start id
          ((working c8_state).x
            / c8_state.step_x) 2
          * c8_state.step_x ≤ r ∧
        r < range_end id
          ((working c8_state).x
            / c8_state.step_x) 2
          * c8_state.step_x ∧
        c < (working c8_state).y ∧
        z = ((r * (working c8_state).y + c : Nat) : Int)) ∧
    (∀ id z,
      z ∉ march_indices ⟨id, 2⟩ (sample_phase 2 [1, 0] c8_state) →
      (working (march ⟨id, 2⟩
          (sample_phase 2 [1, 0] c8_state))).data z
        = (working (sample_phase 2 [1, 0] c8_state)).data z)) :=
  ⟨by decide, by decide,
    C8_march_writes_disjoint 2 (by decide) [1, 0] (by decide)
      c8_state (fun _ _ => ⟨rfl, rfl⟩)⟩

/-! ## Initialisation and the choice of the working bitmap -/

/-- A property every step of a loop keeps holds after the loop. -/
theorem foldl_preserves {σ γ : Type} (Q : σ → Prop) (f : σ → γ → σ)
    (h : ∀ s a, Q s → Q (f s a)) (l : List γ) (s : σ) (hs : Q s) : Q (l.foldl f s) := by
  induction l generalizing s with
  | nil => exact hs
  | cons a l ih => exact ih _ (h s a hs)

/-- When no allocation fails, the loop of lines 227-233 gives every line
`q + 1` cells. -/
theorem alloc_grid_lines_ok (q : Nat) (l : List Nat) :
    alloc_grid_lines malloc_ok q l = .ok (l.map fun _ => q + 1) := by
  induction l with
  | nil => rfl
  | cons i rest ih =>
    simp only [alloc_grid_lines, ih]
    rfl

/-- When no allocation fails, `initialize_image_data_and_barrier` returns the
shared record below. -/
theorem initialize_ok (junk : fresh_memory) (image : ppm_image) (sx sy : Nat) :
    initialize_image_data_and_barrier malloc_ok junk image sx sy = .ok
      { image := image
        contour_map := junk.map
        new_image := { x := RESCALE_X, y := RESCALE_Y, data := junk.pixels }
        scaled_image := .to_new_image
        step_x := sx
        step_y := sy
        grid := junk.grid
        grid_alloc := (List.range (image.x / sx + 1)).map fun _ => image.y / sy + 1
        new_image_alloc := some (RESCALE_X * RESCALE_Y) } := by
  unfold initialize_image_data_and_barrier
  simp only [alloc_grid_lines_ok]
  rfl

/-- The record that `rescale_image` leaves has the bitmaps, pointer and steps
of the same shape as the record it got: only pixels of the working bitmap
change. -/
theorem rescale_image_shape (bicubic : ppm_image → Nat → Nat → Nat → Nat → ppm_pixel)
    (t : thread_data) (d : data) :
    (rescale_image bicubic t d).scaled_image = d.scaled_image ∧
    (working (rescale_image bicubic t d)).x = (working d).x ∧
    (working (rescale_image bicubic t d)).y = (working d).y ∧
    (rescale_image bicubic t d).step_x = d.step_x ∧
    (rescale_image bicubic t d).step_y = d.step_y ∧
    (rescale_image bicubic t d).grid_alloc = d.grid_alloc := by
  unfold rescale_image
  apply foldl_preserves (fun d' => d'.scaled_image = d.scaled_image ∧
    (working d').x = (working d).x ∧ (working d').y = (working d).y ∧
    d'.step_x = d.step_x ∧ d'.step_y = d.step_y ∧ d'.grid_alloc = d.grid_alloc)
  · intro s i hs
    apply foldl_preserves (fun d' => d'.scaled_image = d.scaled_image ∧
      (working d').x = (working d).x ∧ (working d').y = (working d).y ∧
      d'.step_x = d.step_x ∧ d'.step_y = d.step_y ∧ d'.grid_alloc = d.grid_alloc)
    · intro s' j hs'
      obtain ⟨h1, h2, h3, h4, h5, h6⟩ := hs'
      obtain ⟨_, _, g3, g4, g5, g6, _⟩ := set_working_frame s'
        { working s' with
          data := mem_set (working s').data (((i * (working s').y + j : Nat) : Int))
            (bicubic s'.image i (working s').x j (working s').y) }
      simp only
      rw [working_set_working, g3, g4, g5, g6]
      exact ⟨h1, h2, h3, h4, h5, h6⟩
    · exact hs
  · exact ⟨rfl, rfl, rfl, rfl, rfl, rfl⟩

/-- What the first step of `thread_function` leaves when the source exceeds
the rescale target: the pointer still names the bitmap of line 235, whose
dimensions are unchanged. -/
theorem thread_function_rescale_large (bicubic : ppm_image → Nat → Nat → Nat → Nat → ppm_pixel)
    (t : thread_data) (d : data) (h : ¬ (d.image.x ≤ RESCALE_X ∧ d.image.y ≤ RESCALE_Y)) :
    (thread_function_rescale bicubic t d).scaled_image = d.scaled_image ∧
    (working (thread_function_rescale bicubic t d)).x = (working d).x ∧
    (working (thread_function_rescale bicubic t d)).y = (working d).y ∧
    (thread_function_rescale bicubic t d).step_x = d.step_x ∧
    (thread_function_rescale bicubic t d).step_y = d.step_y ∧
    (thread_function_rescale bicubic t d).grid_alloc = d.grid_alloc := by
  unfold thread_function_rescale
  rw [if_pos h]
  exact rescale_image_shape bicubic t d

/-- What the first step of `thread_function` leaves when the source fits the
rescale target: the pointer names the source bitmap. -/
theorem thread_function_rescale_small (bicubic : ppm_image → Nat → Nat → Nat → Nat → ppm_pixel)
    (t : thread_data) (d : data) (h : d.image.x ≤ RESCALE_X ∧ d.image.y ≤ RESCALE_Y) :
    thread_function_rescale bicubic t d = { d with scaled_image := .to_image } := by
  unfold thread_function_rescale
  rw [if_neg (not_not_intro h)]

/-- Sampling and marching leave the pointer to the working bitmap and the
dimensions of that bitmap alone. -/
theorem sample_march_shape (t : thread_data) (d : data) :
    (march t (sample_grid t d)).scaled_image = d.scaled_image ∧
    (working (march t (sample_grid t d))).x = (working d).x ∧
    (working (march t (sample_grid t d))).y = (working d).y := by
  rw [march_eq, working_set_working, sample_grid_eq]
  refine ⟨?_, rfl, rfl⟩
  exact (set_working_frame _ _).2.2.2.2.1

theorem mem_map_const (c : Nat) (l : List Nat) (n : Nat) (h : n ∈ l.map fun _ => c) : n = c := by
  obtain ⟨_, _, rfl⟩ := List.mem_map.mp h
  rfl

/-- For a source that exceeds the rescale target the grid is allocated from
the dimensions of the source, while the working bitmap is the rescaled one. -/
theorem grid_alloc_large_source (junk : fresh_memory)
    (bicubic : ppm_image → Nat → Nat → Nat → Nat → ppm_pixel) (t : thread_data)
    (image : ppm_image) (sx sy : Nat) (h : ¬ (image.x ≤ RESCALE_X ∧ image.y ≤ RESCALE_Y)) :
    ∃ d, initialize_image_data_and_barrier malloc_ok junk image sx sy = .ok d ∧
      d.grid_alloc.length = image.x / sx + 1 ∧
      (∀ n ∈ d.grid_alloc, n = image.y / sy + 1) ∧
      (working (thread_function_rescale bicubic t d)).x = RESCALE_X ∧
      (working (thread_function_rescale bicubic t d)).y = RESCALE_Y ∧
      (thread_function_rescale bicubic t d).step_x = sx ∧
      (thread_function_rescale bicubic t d).step_y = sy ∧
      (thread_function_rescale bicubic t d).grid_alloc = d.grid_alloc := by
  refine ⟨_, initialize_ok junk image sx sy, ?_, ?_, ?_, ?_, ?_, ?_, ?_⟩
  · exact (List.length_map _ _).trans (List.length_range _)
  · intro n hn
    exact mem_map_const _ _ n hn
  · rw [(thread_function_rescale_large bicubic t _ h).2.1]
    rfl
  · rw [(thread_function_rescale_large bicubic t _ h).2.2.1]
    rfl
  · rw [(thread_function_rescale_large bicubic t _ h).2.2.2.1]
  · rw [(thread_function_rescale_large bicubic t _ h).2.2.2.2.1]
  · rw [(thread_function_rescale_large bicubic t _ h).2.2.2.2.2]

/-- C9, at a source of 4096 lines of 8 pixels: the grid is allocated with
`4096/8 + 1 = 513` lines of `8/8 + 1 = 2` cells, from the dimensions of the
source, and is still so when the workers sample; the working bitmap of
`sample_grid` and `march` is 2048 x 2048 and asks for `257` lines of `257`
cells; `sample_grid` stores to `grid[0][256]`, in a line of 2 cells. -/
theorem C9_grid_sized_from_source (junk : fresh_memory)
    (bicubic : ppm_image → Nat → Nat → Nat → Nat → ppm_pixel) (t : thread_data) :
    ∃ d, initialize_image_data_and_barrier malloc_ok junk c9_source STEP STEP = .ok d ∧
      (thread_function_rescale bicubic t d).grid_alloc.length = 513 ∧
      (∀ n ∈ (thread_function_rescale bicubic t d).grid_alloc, n = 2) ∧
      (working (thread_function_rescale bicubic t d)).x
        / (thread_function_rescale bicubic t d).step_x + 1 = 257 ∧
      (working (thread_function_rescale bicubic t d)).y
        / (thread_function_rescale bicubic t d).step_y + 1 = 257 ∧
      (∃ w ∈ sample_writes (working (thread_function_rescale bicubic t d))
          (thread_function_rescale bicubic t d).step_x
          (thread_function_rescale bicubic t d).step_y ⟨0, 1⟩, w.1 = (0, 256)) := by
  have hlines : c9_source.x / STEP + 1 = 513 := by decide
  have hcells : c9_source.y / STEP + 1 = 2 := by decide
  have hp : RESCALE_X / STEP + 1 = 257 := by decide
  have hq : RESCALE_Y / STEP + 1 = 257 := by decide
  have hq' : 256 ≤ RESCALE_Y / STEP := by decide
  obtain ⟨d, h0, h1, h2, h3, h4, h5, h6, h7⟩ :=
    grid_alloc_large_source junk bicubic t c9_source STEP STEP (by decide)
  refine ⟨d, h0, ?_, ?_, ?_, ?_, ?_⟩
  · rw [h7]
    exact h1.trans hlines
  · rw [h7]
    exact fun n hn => (h2 n hn).trans hcells
  · rw [h3, h5]
    exact hp
  · rw [h4, h6]
    exact hq
  · obtain ⟨id, hid, w, hw, hwc⟩ := sample_writes_complete
      (working (thread_function_rescale bicubic t d))
      (thread_function_rescale bicubic t d).step_x
      (thread_function_rescale bicubic t d).step_y (le_refl 1) (0, 256) (Nat.zero_le _)
      (by rw [h4, h6]; exact hq')
    have hid0 : id = 0 := by omega
    subst hid0
    exact ⟨w, hw, hwc⟩

/-- For a source that fits the rescale target the allocation does match the
working bitmap: `p + 1` lines of `q + 1` cells. -/
theorem grid_alloc_small_source (junk : fresh_memory)
    (bicubic : ppm_image → Nat → Nat → Nat → Nat → ppm_pixel) (t : thread_data)
    (image : ppm_image) (sx sy : Nat) (h : image.x ≤ RESCALE_X ∧ image.y ≤ RESCALE_Y) :
    ∃ d, initialize_image_data_and_barrier malloc_ok junk image sx sy = .ok d ∧
      d.grid_alloc.length = (working (thread_function_rescale bicubic t d)).x / d.step_x + 1 ∧
      (∀ n ∈ d.grid_alloc,
        n = (working (thread_function_rescale bicubic t d)).y / d.step_y + 1) := by
  refine ⟨_, initialize_ok junk image sx sy, ?_, ?_⟩
  · rw [thread_function_rescale_small bicubic t _ h]
    exact (List.length_map _ _).trans (List.length_range _)
  · intro n hn
    rw [thread_function_rescale_small bicubic t _ h]
    exact mem_map_const _ _ n hn

/-- C10: after `initialize_image_data_and_barrier` and the first step of
`thread_function`, the working bitmap is 2048 x 2048 when the source exceeds
2048 in `x` or in `y`; otherwise `scaled_image` points to the source bitmap
itself, which is unchanged.  The rest of `thread_function` (sampling and
marching) keeps this choice and these dimensions. -/
theorem C10_working_bitmap (junk : fresh_memory)
    (bicubic : ppm_image → Nat → Nat → Nat → Nat → ppm_pixel) (t : thread_data)
    (image : ppm_image) (sx sy : Nat) :
    ∃ d, initialize_image_data_and_barrier malloc_ok junk image sx sy = .ok d ∧
      ((2048 < image.x ∨ 2048 < image.y) →
        (working (thread_function_rescale bicubic t d)).x = 2048 ∧
        (working (thread_function_rescale bicubic t d)).y = 2048 ∧
        (working (thread_function bicubic t d)).x = 2048 ∧
        (working (thread_function bicubic t d)).y = 2048) ∧
      (¬ (2048 < image.x ∨ 2048 < image.y) →
        (thread_function_rescale bicubic t d).scaled_image = .to_image ∧
        (thread_function_rescale bicubic t d).image = image ∧
        working (thread_function_rescale bicubic t d) = image ∧
        (thread_function bicubic t d).scaled_image = .to_image ∧
        (working (thread_function bicubic t d)).x = image.x ∧
        (working (thread_function bicubic t d)).y = image.y) := by
  refine ⟨_, initialize_ok junk image sx sy, ?_, ?_⟩
  · intro h
    have hbig : ¬ (image.x ≤ RESCALE_X ∧ image.y ≤ RESCALE_Y) := by
      unfold RESCALE_X RESCALE_Y
      omega
    obtain ⟨_, h2, h3, _⟩ := thread_function_rescale_large bicubic t
      { image := image, contour_map := junk.map,
        new_image := { x := RESCALE_X, y := RESCALE_Y, data := junk.pixels },
        scaled_image := .to_new_image, step_x := sx, step_y := sy, grid := junk.grid,
        grid_alloc := (List.range (image.x / sx + 1)).map fun _ => image.y / sy + 1,
        new_image_alloc := some (RESCALE_X * RESCALE_Y) } hbig
    obtain ⟨_, g2, g3⟩ := sample_march_shape t (thread_function_rescale bicubic t
      { image := image, contour_map := junk.map,
        new_image := { x := RESCALE_X, y := RESCALE_Y, data := junk.pixels },
        scaled_image := .to_new_image, step_x := sx, step_y := sy, grid := junk.grid,
        grid_alloc := (List.range (image.x / sx + 1)).map fun _ => image.y / sy + 1,
        new_image_alloc := some (RESCALE_X * RESCALE_Y) })
    unfold thread_function
    rw [g2, g3, h2, h3]
    exact ⟨rfl, rfl, rfl, rfl⟩
  · intro h
    have hsmall : image.x ≤ RESCALE_X ∧ image.y ≤ RESCALE_Y := by
      unfold RESCALE_X RESCALE_Y
      omega
    have hstep := thread_function_rescale_small bicubic t
      { image := image, contour_map := junk.map,
        new_image := { x := RESCALE_X, y := RESCALE_Y, data := junk.pixels },
        scaled_image := .to_new_image, step_x := sx, step_y := sy, grid := junk.grid,
        grid_alloc := (List.range (image.x / sx + 1)).map fun _ => image.y / sy + 1,
        new_image_alloc := some (RESCALE_X * RESCALE_Y) } hsmall
    obtain ⟨g1, g2, g3⟩ := sample_march_shape t (thread_function_rescale bicubic t
      { image := image, contour_map := junk.map,
        new_image := { x := RESCALE_X, y := RESCALE_Y, data := junk.pixels },
        scaled_image := .to_new_image, step_x := sx, step_y := sy, grid := junk.grid,
        grid_alloc := (List.range (image.x / sx + 1)).map fun _ => image.y / sy + 1,
        new_image_alloc := some (RESCALE_X * RESCALE_Y) })
    unfold thread_function
    rw [g1, g2, g3, hstep]
    exact ⟨rfl, rfl, rfl, rfl, rfl, rfl⟩

/-! ## Uniform bitmaps -/

/-- The index of an interior sample lies in the bitmap. -/
theorem interior_index_bounds (sx sy x y : Nat) {i j : Nat} (hi : i < x / sx)
    (hj : j < y / sy) :
    0 ≤ interior_index sx sy y i j ∧ interior_index sx sy y i j < ((x * y : Nat) : Int) := by
  unfold interior_index
  have h1 := succ_mul_le_of_lt_div hi
  have h2 := succ_mul_le_of_lt_div hj
  have e1 : (i + 1) * sx = i * sx + sx := by ring
  have e2 : (j + 1) * sy = j * sy + sy := by ring
  have hsx : 0 < sx := by
    rcases Nat.eq_zero_or_pos sx with h | h
    · subst h; simp at hi
    · exact h
  have hsy : 0 < sy := by
    rcases Nat.eq_zero_or_pos sy with h | h
    · subst h; simp at hj
    · exact h
  have h3 : (i * sx + 1) * y ≤ x * y := Nat.mul_le_mul_right y (by omega)
  have e3 : (i * sx + 1) * y = i * sx * y + y := by ring
  refine ⟨Int.ofNat_nonneg _, ?_⟩
  exact Int.ofNat_lt.mpr (by omega)

/-- The index of a sample of the last line lies in the bitmap, when the bitmap
has a line at all. -/
theorem line_index_bounds (sy x y : Nat) {j : Nat} (hx : 1 ≤ x) (hj : j < y / sy) :
    0 ≤ line_index sy x y j ∧ line_index sy x y j < ((x * y : Nat) : Int) := by
  unfold line_index
  have h2 := succ_mul_le_of_lt_div hj
  have e2 : (j + 1) * sy = j * sy + sy := by ring
  have hsy : 0 < sy := by
    rcases Nat.eq_zero_or_pos sy with h | h
    · subst h; simp at hj
    · exact h
  obtain ⟨x', rfl⟩ : ∃ x', x = x' + 1 := ⟨x - 1, by omega⟩
  have e3 : (x' + 1) * y = x' * y + y := by ring
  have e4 : (((x' + 1 : Nat) : Int) - 1) * (y : Int) = ((x' * y : Nat) : Int) := by
    push_cast
    ring
  rw [e4, e3]
  refine ⟨by positivity, ?_⟩
  rw [← Int.ofNat_add]
  exact Int.ofNat_lt.mpr (by omega)

/-- On a uniform bitmap with at least one line, if the samples of the last
column stay inside the bitmap, then every cell of the grid but `(p, q)` holds
the thresholded luminance of the colour, and `(p, q)` holds 0. -/
theorem sample_phase_uniform (P : Nat) (hP : 1 ≤ P) (order : List Nat)
    (horder : order.Perm (List.range P)) (d : data) (px : ppm_pixel)
    (hu : ∀ z : Int, 0 ≤ z → z < (((working d).x * (working d).y : Nat) : Int) →
      (working d).data z = px)
    (hx : 1 ≤ (working d).x)
    (hcol : ∀ i, i < (working d).x / d.step_x →
      column_index d.step_x (working d).x (working d).y i
        < (((working d).x * (working d).y : Nat) : Int)) :
    (∀ i j, i ≤ (working d).x / d.step_x → j ≤ (working d).y / d.step_y →
      (i, j) ≠ ((working d).x / d.step_x, (working d).y / d.step_y) →
      (sample_phase P order d).grid (i, j) = if luminance px ≤ 200 then 1 else 0) ∧
    (sample_phase P order d).grid ((working d).x / d.step_x, (working d).y / d.step_y) = 0 := by
  refine ⟨?_, (sample_phase_border P hP order horder d).2.2⟩
  intro i j hi hj hne
  rw [sample_phase_grid P hP order (perm_range_lt horder) (perm_range_mem horder) d]
  simp only [hi, hj, and_self, if_true, sample_expected]
  by_cases hip : i < (working d).x / d.step_x
  · by_cases hjq : j < (working d).y / d.step_y
    · obtain ⟨b1, b2⟩ :=
        interior_index_bounds d.step_x d.step_y (working d).x (working d).y hip hjq
      rw [if_pos ⟨hip, hjq⟩, hu _ b1 b2, sample_value_eq]
    · have hjq' : j = (working d).y / d.step_y := by omega
      have b1 : 0 ≤ column_index d.step_x (working d).x (working d).y i := by
        unfold column_index
        have : (0 : Int) ≤ ((i * d.step_x * (working d).y : Nat) : Int) := Int.ofNat_nonneg _
        omega
      rw [if_neg (fun h => hjq h.2), if_pos ⟨hip, hjq'⟩, hu _ b1 (hcol i hip), sample_value_eq]
  · have hip' : i = (working d).x / d.step_x := by omega
    have hjq : j < (working d).y / d.step_y := by
      rcases Nat.lt_or_ge j ((working d).y / d.step_y) with h | h
      · exact h
      · exact absurd (by rw [hip', Nat.le_antisymm hj h]) hne
    obtain ⟨b1, b2⟩ := line_index_bounds d.step_y (working d).x (working d).y hx hjq
    rw [if_neg (fun h => hip h.1), if_neg (fun h => hip h.1), if_pos ⟨hip', hjq⟩, hu _ b1 b2,
      sample_value_eq]

/-! ## Interleaved stores

The stores of a phase may be interleaved in any way between the workers: the
memory they leave is that of the workers running one after the other. -/

/-- Any interleaving of the stores of a sampling phase leaves the grid of the
phase. -/
theorem sample_phase_interleaved (P : Nat) (hP : 1 ≤ P) (order : List Nat)
    (hlt : ∀ id ∈ order, id < P) (d : data) (ws : List ((Nat × Nat) × Nat))
    (hws : ws.Perm
      (order.flatMap fun id => sample_writes (working d) d.step_x d.step_y ⟨id, P⟩)) :
    apply_writes d.grid ws = (sample_phase P order d).grid := by
  rw [sample_phase_eq]
  apply apply_writes_congr
  · intro w
    exact hws.mem_iff
  · intro w hw w' hw' h
    obtain ⟨id, hid, hw1⟩ := List.mem_flatMap.mp (hws.mem_iff.mp hw)
    obtain ⟨id', hid', hw1'⟩ := List.mem_flatMap.mp (hws.mem_iff.mp hw')
    rw [(sample_writes_sound (working d) d.step_x d.step_y hP (hlt id hid) w hw1).2.2,
      (sample_writes_sound (working d) d.step_x d.step_y hP (hlt id' hid') w' hw1').2.2, h]

/-- Any interleaving of the stores of a marching phase leaves the pixels of
the phase. -/
theorem march_phase_interleaved (P : Nat) (hP : 1 ≤ P) (order : List Nat)
    (hlt : ∀ id ∈ order, id < P) (d : data)
    (htiles : ∀ k, k < CONTOUR_CONFIG_COUNT →
      (d.contour_map k).x = d.step_x ∧ (d.contour_map k).y = d.step_y)
    (hg : ∀ i j, i ≤ (working d).x / d.step_x → j ≤ (working d).y / d.step_y → d.grid (i, j) ≤ 1)
    (ws : List (Int × ppm_pixel))
    (hws : ws.Perm (order.flatMap fun id =>
      march_writes d.grid d.contour_map d.step_x d.step_y (working d).x (working d).y ⟨id, P⟩)) :
    apply_writes (working d).data ws = (working (march_phase P order d)).data := by
  rw [march_phase_eq, working_set_working]
  apply apply_writes_congr
  · intro w
    exact hws.mem_iff
  · intro w hw w' hw' h
    obtain ⟨id, hid, hw1⟩ := List.mem_flatMap.mp (hws.mem_iff.mp hw)
    obtain ⟨id', hid', hw1'⟩ := List.mem_flatMap.mp (hws.mem_iff.mp hw')
    exact march_writes_functional hP (hlt id hid) (hlt id' hid') htiles hg hw1 hw1' h

/-! ## The override of the last worker, and the ranges of `rescale_image` -/

/-- C20: for `P ≥ 1` the formula `(id + 1) * D / P` already gives `D` for the
last worker `id = P - 1`, so `range_end`, which replaces the end of the last
worker by `D`, is the formula for every worker. -/
theorem C20_override_is_formula (P D : Nat) (hP : 1 ≤ P) :
    (P - 1 + 1) * D / P = D ∧ ∀ id, id < P → range_end id D P = (id + 1) * D / P := by
  refine ⟨?_, fun id hid => range_end_eq D hP id hid⟩
  have : P - 1 + 1 = P := by omega
  rw [this, range_formula_last D hP]

theorem C20_override_is_formula_witness :
    1 ≤ 3 ∧ ((3 - 1 + 1) * 10 / 3 = 10 ∧ ∀ id, id < 3 → range_end id 10 3 = (id + 1) * 10 / 3) :=
  ⟨by decide, C20_override_is_formula 3 10 (by decide)⟩

theorem rescale_end_of_lt {id P : Nat} (D : Nat) (h : id + 1 < P) :
    rescale_end id D P = (id + 1) * (D / P) := by
  unfold rescale_end
  rw [if_neg (by omega)]

theorem rescale_end_last (D P : Nat) : rescale_end (P - 1) D P = D := by
  unfold rescale_end
  rw [if_pos rfl]

theorem rescale_quota_le (D : Nat) {P id : Nat} (hid : id ≤ P) : id * (D / P) ≤ D :=
  le_trans (Nat.mul_le_mul_right _ hid) (Nat.mul_div_le D P)

theorem rescale_end_le (D : Nat) {P : Nat} (id : Nat) (hid : id < P) :
    rescale_end id D P ≤ D := by
  unfold rescale_end
  split
  · exact le_refl D
  · exact rescale_quota_le D (by omega)

theorem rescale_start_le_end (D : Nat) {P : Nat} (id : Nat) (hid : id < P) :
    rescale_start id D P ≤ rescale_end id D P := by
  unfold rescale_start rescale_end
  split
  · exact rescale_quota_le D (by omega)
  · exact Nat.mul_le_mul_right _ (by omega)

/-- Ranges of workers `a < b` of `rescale_image` are in order. -/
theorem rescale_end_le_start (D : Nat) {P a b : Nat} (hab : a < b) (hb : b < P) :
    rescale_end a D P ≤ rescale_start b D P := by
  rw [rescale_end_of_lt D (by omega)]
  exact Nat.mul_le_mul_right _ (by omega)

/-- Two workers of `rescale_image` whose ranges share a line are the same worker. -/
theorem rescale_disjoint (D : Nat) {P a b k : Nat} (ha : a < P) (hb : b < P)
    (hka : rescale_start a D P ≤ k ∧ k < rescale_end a D P)
    (hkb : rescale_start b D P ≤ k ∧ k < rescale_end b D P) : a = b := by
  rcases Nat.lt_trichotomy a b with h | h | h
  · have := rescale_end_le_start D h hb
    omega
  · exact h
  · have := rescale_end_le_start D h ha
    omega

/-- Every line below `D` lies in the range of some worker of `rescale_image`. -/
theorem rescale_cover (D : Nat) {P : Nat} (hP : 1 ≤ P) {k : Nat} (hk : k < D) :
    ∃ id, id < P ∧ rescale_start id D P ≤ k ∧ k < rescale_end id D P := by
  by_cases hlow : k < (P - 1) * (D / P)
  · have hq : 0 < D / P := by
      rcases Nat.eq_zero_or_pos (D / P) with h | h
      · rw [h] at hlow; simp at hlow
      · exact h
    have hidx : k / (D / P) < P - 1 := by
      rw [Nat.div_lt_iff_lt_mul hq]
      exact hlow
    refine ⟨k / (D / P), by omega, ?_, ?_⟩
    · unfold rescale_start
      exact Nat.div_mul_le_self k (D / P)
    · rw [rescale_end_of_lt D (by omega)]
      have := Nat.lt_mul_div_succ k hq
      rw [Nat.mul_comm] at this
      exact this
  · refine ⟨P - 1, by omega, ?_, ?_⟩
    · unfold rescale_start
      omega
    · rw [rescale_end_last D P]
      exact hk

/-- C12: for `P ≥ 1` and any `D` the line ranges of `rescale_image`,
`start = id * (D / P)`, `end = (id + 1) * (D / P)` and `end = D` for the last
worker, stay inside `[0, D)`, are pairwise disjoint, and every line of
`[0, D)` belongs to exactly one of them. -/
theorem C12_rescale_ranges_partition (P D : Nat) (hP : 1 ≤ P) :
    (∀ id, id < P → rescale_start id D P = id * (D / P) ∧
      rescale_end id D P = (if id = P - 1 then D else (id + 1) * (D / P)) ∧
      rescale_start id D P ≤ rescale_end id D P ∧ rescale_end id D P ≤ D) ∧
    (∀ a b, a < P → b < P → a ≠ b →
      ∀ k, ¬ ((rescale_start a D P ≤ k ∧ k < rescale_end a D P) ∧
              (rescale_start b D P ≤ k ∧ k < rescale_end b D P))) ∧
    (∀ k, k < D → ∃! id, id < P ∧ rescale_start id D P ≤ k ∧ k < rescale_end id D P) := by
  refine ⟨fun id hid => ⟨rfl, rfl, rescale_start_le_end D id hid, rescale_end_le D id hid⟩,
    ?_, ?_⟩
  · intro a b ha hb hab k hk
    exact hab (rescale_disjoint D ha hb hk.1 hk.2)
  · intro k hk
    obtain ⟨id, hid, h1, h2⟩ := rescale_cover D hP hk
    refine ⟨id, ⟨hid, h1, h2⟩, ?_⟩
    rintro b ⟨hb, hb1, hb2⟩
    exact rescale_disjoint D hb hid ⟨hb1, hb2⟩ ⟨h1, h2⟩

theorem C12_rescale_ranges_partition_witness :
    1 ≤ 5 ∧
    ((∀ id, id < 5 → rescale_start id 3 5 = id * (3 / 5) ∧
      rescale_end id 3 5 = (if id = 5 - 1 then 3 else (id + 1) * (3 / 5)) ∧
      rescale_start id 3 5 ≤ rescale_end id 3 5 ∧ rescale_end id 3 5 ≤ 3) ∧
    (∀ a b, a < 5 → b < 5 → a ≠ b →
      ∀ k, ¬ ((rescale_start a 3 5 ≤ k ∧ k < rescale_end a 3 5) ∧
              (rescale_start b 3 5 ≤ k ∧ k < rescale_end b 3 5))) ∧
    (∀ k, k < 3 → ∃! id, id < 5 ∧ rescale_start id 3 5 ≤ k ∧ k < rescale_end id 3 5)) :=
  ⟨by decide, C12_rescale_ranges_partition 5 3 (by decide)⟩

/-! ## The stores of `rescale_image` -/

theorem set_working_new_image (d : data) (im : ppm_image)
    (h : d.scaled_image = .to_new_image) : set_working d im = { d with new_image := im } := by
  unfold set_working
  rw [h]

theorem working_new_image (d : data) (h : d.scaled_image = .to_new_image) :
    working d = d.new_image := by
  unfold working
  rw [h]

/-- A loop whose body stores pixels into the bitmap of line 235, the stores
depending on nothing the loop changes. -/
theorem foldl_new_image_writes {γ : Type} (body : data → γ → data)
    (tr : data → γ → List (Int × ppm_pixel))
    (hbody : ∀ d a, d.scaled_image = .to_new_image →
      body d a = { d with new_image := with_writes d.new_image (tr d a) })
    (htr : ∀ (d : data) ws a,
      tr { d with new_image := with_writes d.new_image ws } a = tr d a)
    (l : List γ) (d : data) (h : d.scaled_image = .to_new_image) :
    l.foldl body d = { d with new_image := with_writes d.new_image (l.flatMap (tr d)) } := by
  induction l generalizing d with
  | nil => rfl
  | cons a l ih =>
    have h' : ({ d with new_image := with_writes d.new_image (tr d a) } : data).scaled_image
        = .to_new_image := h
    rw [List.foldl_cons, hbody d a h, ih _ h', List.flatMap_cons]
    have e : (fun b => tr { d with new_image := with_writes d.new_image (tr d a) } b) = tr d :=
      funext fun b => htr d (tr d a) b
    show ({ d with
      new_image := with_writes (with_writes d.new_image (tr d a))
        (l.flatMap fun b => tr { d with new_image := with_writes d.new_image (tr d a) } b) }
        : data) = _
    rw [e, with_writes_append]

/-- On the bitmap of line 235, `rescale_image` performs the stores of
`rescale_writes`. -/
theorem rescale_image_eq (bicubic : ppm_image → Nat → Nat → Nat → Nat → ppm_pixel)
    (t : thread_data) (d : data) (h : d.scaled_image = .to_new_image) :
    rescale_image bicubic t d
      = { d with
          new_image := with_writes d.new_image
            (rescale_writes bicubic d.image d.new_image.x d.new_image.y t) } := by
  have inner : ∀ (i : Nat) (d : data), d.scaled_image = .to_new_image →
      (List.range (working d).y).foldl (fun d j =>
        set_working d { working d with
          data := mem_set (working d).data (((i * (working d).y + j : Nat) : Int))
                    (bicubic d.image i (working d).x j (working d).y) }) d
      = { d with
          new_image := with_writes d.new_image ((List.range d.new_image.y).map fun j =>
            (((i * d.new_image.y + j : Nat) : Int),
              bicubic d.image i d.new_image.x j d.new_image.y)) } := by
    intro i d hd
    rw [working_new_image d hd]
    have := foldl_new_image_writes
      (fun d j =>
        set_working d { working d with
          data := mem_set (working d).data (((i * (working d).y + j : Nat) : Int))
                    (bicubic d.image i (working d).x j (working d).y) })
      (fun d j => [(((i * d.new_image.y + j : Nat) : Int),
        bicubic d.image i d.new_image.x j d.new_image.y)])
      (fun d j hd => by
        show set_working d _ = _
        rw [set_working_new_image d _ hd]
        simp only [working_new_image d hd]
        rfl)
      (fun _ _ _ => rfl) (List.range d.new_image.y) d hd
    rw [this]
    congr 2
    induction List.range d.new_image.y with
    | nil => rfl
    | cons j js ih => rw [List.flatMap_cons, ih]; rfl
  have outer := foldl_new_image_writes
    (fun d i =>
      (List.range (working d).y).foldl (fun d j =>
        set_working d { working d with
          data := mem_set (working d).data (((i * (working d).y + j : Nat) : Int))
                    (bicubic d.image i (working d).x j (working d).y) }) d)
    (fun d i => (List.range d.new_image.y).map fun j =>
      (((i * d.new_image.y + j : Nat) : Int), bicubic d.image i d.new_image.x j d.new_image.y))
    (fun d i hd => inner i d hd) (fun _ _ _ => rfl)
    (List.range' (rescale_start t.thread_id (working d).x t.no_threads)
      (rescale_end t.thread_id (working d).x t.no_threads
        - rescale_start t.thread_id (working d).x t.no_threads)) d h
  refine outer.trans ?_
  rw [working_new_image d h]
  rfl

/-- The stores of one worker of `rescale_image`, spelled out. -/
theorem mem_rescale_writes {bicubic : ppm_image → Nat → Nat → Nat → Nat → ppm_pixel}
    {image : ppm_image} {sx sy : Nat} {t : thread_data} {w : Int × ppm_pixel} :
    w ∈ rescale_writes bicubic image sx sy t ↔
      ∃ i j, rescale_start t.thread_id sx t.no_threads ≤ i ∧
        i < rescale_end t.thread_id sx t.no_threads ∧ j < sy ∧
        w = (((i * sy + j : Nat) : Int), bicubic image i sx j sy) := by
  simp only [rescale_writes, List.mem_flatMap, List.mem_map, List.mem_range, List.mem_range'_1]
  constructor
  · rintro ⟨i, ⟨h1, h2⟩, j, hj, rfl⟩
    exact ⟨i, j, h1, by omega, hj, rfl⟩
  · rintro ⟨i, j, h1, h2, hj, rfl⟩
    exact ⟨i, ⟨h1, by omega⟩, j, hj, rfl⟩

/-- C11, as stated, fails for three workers: worker 2 starts at line
`2 * (2048 / 3) = 1364`, not at `2 * 2048 / 3 = 1365`, worker 1 ends at
`1364`, not at `1365`, and worker 2 stores to line 1364. -/
theorem C11_rescale_divides_first :
    rescale_start 2 2048 3 = 1364 ∧ 2 * 2048 / 3 = 1365 ∧
    rescale_end 1 2048 3 = 1364 ∧ (1 + 1) * 2048 / 3 = 1365 ∧
    range_start 2 2048 3 = 1365 ∧
    (∃ w ∈ rescale_writes plain_environment.sample_bicubic c9_source 2048 2048 ⟨2, 3⟩,
      w.1 = ((1364 * 2048 + 0 : Nat) : Int)) := by
  refine ⟨by decide, by decide, by decide, by decide, by decide, ?_⟩
  exact ⟨_, mem_rescale_writes.mpr ⟨1364, 0, by decide, by decide, by decide, rfl⟩, rfl⟩

/-- C11, amended: on the bitmap of line 235, of `D` lines (`D = 2048` after
initialisation), worker `id` of `P ≥ 1` of `rescale_image` stores exactly to
the pixels of the lines `[id * (D / P), (id + 1) * (D / P))`, the end being
`D` for `id = P - 1`: the division comes first.  When `P` divides `D` this is
the range `[id * D / P, (id + 1) * D / P)` of the sampling and marching
phases. -/
theorem C11_rescale_range (bicubic : ppm_image → Nat → Nat → Nat → Nat → ppm_pixel)
    (P : Nat) (hP : 1 ≤ P) (id : Nat) (hid : id < P) (d : data)
    (hptr : d.scaled_image = .to_new_image) :
    rescale_image bicubic ⟨id, P⟩ d
      = { d with
          new_image := with_writes d.new_image
            (rescale_writes bicubic d.image d.new_image.x d.new_image.y ⟨id, P⟩) } ∧
    (∀ z, z ∈ (rescale_writes bicubic d.image d.new_image.x d.new_image.y ⟨id, P⟩).map Prod.fst ↔
      ∃ i j, id * (d.new_image.x / P) ≤ i ∧
        i < (if id = P - 1 then d.new_image.x else (id + 1) * (d.new_image.x / P)) ∧
        j < d.new_image.y ∧ z = ((i * d.new_image.y + j : Nat) : Int)) ∧
    (P ∣ d.new_image.x →
      rescale_start id d.new_image.x P = range_start id d.new_image.x P ∧
      rescale_end id d.new_image.x P = range_end id d.new_image.x P) := by
  refine ⟨rescale_image_eq bicubic ⟨id, P⟩ d hptr, ?_, ?_⟩
  · intro z
    constructor
    · intro hz
      obtain ⟨w, hw, rfl⟩ := List.mem_map.mp hz
      obtain ⟨i, j, h1, h2, hj, rfl⟩ := mem_rescale_writes.mp hw
      exact ⟨i, j, h1, h2, hj, rfl⟩
    · rintro ⟨i, j, h1, h2, hj, rfl⟩
      exact List.mem_map.mpr ⟨_, mem_rescale_writes.mpr ⟨i, j, h1, h2, hj, rfl⟩, rfl⟩
  · intro hdvd
    constructor
    · unfold rescale_start range_start
      exact (Nat.mul_div_assoc id hdvd).symm
    · rw [range_end_eq d.new_image.x hP id hid]
      unfold rescale_end
      split
      · next h =>
        have e : id + 1 = P := by omega
        rw [e, range_formula_last d.new_image.x hP]
      · exact (Nat.mul_div_assoc (id + 1) hdvd).symm

theorem C11_rescale_range_witness :
    1 ≤ 4 ∧ 1 < 4 ∧
    (rescale_image plain_environment.sample_bicubic ⟨1, 4⟩
        { state_of c4_bitmap with scaled_image := .to_new_image }
      = { ({ state_of c4_bitmap with scaled_image := .to_new_image } : data) with
          new_image := with_writes
            ({ state_of c4_bitmap with scaled_image := .to_new_image } : data).new_image
            (rescale_writes plain_environment.sample_bicubic c4_bitmap 2048 2048 ⟨1, 4⟩) } ∧
    (∀ z, z ∈ (rescale_writes plain_environment.sample_bicubic c4_bitmap 2048 2048
          ⟨1, 4⟩).map Prod.fst ↔
      ∃ i j, 1 * (2048 / 4) ≤ i ∧ i < (if 1 = 4 - 1 then 2048 else (1 + 1) * (2048 / 4)) ∧
        j < 2048 ∧ z = ((i * 2048 + j : Nat) : Int)) ∧
    (4 ∣ 2048 →
      rescale_start 1 2048 4 = range_start 1 2048 4 ∧
      rescale_end 1 2048 4 = range_end 1 2048 4)) :=
  ⟨by decide, by decide,
    C11_rescale_range plain_environment.sample_bicubic 4 (by decide) 1 (by decide)
      { state_of c4_bitmap with scaled_image := .to_new_image } rfl⟩

/-! ## Allocation failures -/

/-- The loop of lines 227-233 succeeds when every line is allocated. -/
theorem alloc_grid_lines_all (m : malloc_results) (q : Nat) (l : List Nat)
    (h : ∀ i ∈ l, m.grid_line i = true) :
    alloc_grid_lines m q l = .ok (l.map fun _ => q + 1) := by
  induction l with
  | nil => rfl
  | cons i rest ih =>
    simp only [alloc_grid_lines, h i (List.mem_cons_self _ _), if_true,
      ih (fun j hj => h j (List.mem_cons_of_mem _ hj))]
    rfl

/-- The loop of lines 227-233 exits with status 1 when the allocation of a
line fails. -/
theorem alloc_grid_lines_fails (m : malloc_results) (q : Nat) (l : List Nat)
    (h : ∃ i ∈ l, m.grid_line i = false) : alloc_grid_lines m q l = .error 1 := by
  induction l with
  | nil => obtain ⟨i, hi, _⟩ := h; cases hi
  | cons i rest ih =>
    by_cases hi : m.grid_line i = true
    · have hrest : ∃ j ∈ rest, m.grid_line j = false := by
        obtain ⟨j, hj, hjf⟩ := h
        rcases List.mem_cons.mp hj with e | e
        · subst e; rw [hi] at hjf; cases hjf
        · exact ⟨j, e, hjf⟩
      simp only [alloc_grid_lines, hi, if_true, ih hrest]
    · simp only [alloc_grid_lines, hi]
      rfl

/-- The failures `initialize_image_data_and_barrier` does detect: the
tile-pointer array, the array of grid lines, a grid line, the header of the
rescaled bitmap and the barrier.  Each ends the process with status 1. -/
theorem initialize_exits (m : malloc_results) (junk : fresh_memory) (image : ppm_image)
    (sx sy : Nat)
    (h : m.map = false ∨ m.grid = false ∨ (∃ i, i ≤ image.x / sx ∧ m.grid_line i = false) ∨
      m.new_image = false ∨ m.barrier = false) :
    initialize_image_data_and_barrier m junk image sx sy = .error 1 := by
  unfold initialize_image_data_and_barrier
  by_cases h1 : m.map = true
  swap
  · simp [h1]
  by_cases h2 : m.grid = true
  swap
  · simp [h1, h2]
  by_cases h3 : ∃ i ∈ List.range (image.x / sx + 1), m.grid_line i = false
  · simp only [h1, h2, alloc_grid_lines_fails m (image.y / sy) _ h3]
    simp
  have h3' : ∀ i ∈ List.range (image.x / sx + 1), m.grid_line i = true := by
    intro i hi
    by_contra hc
    exact h3 ⟨i, hi, by simpa using hc⟩
  simp only [h1, h2, alloc_grid_lines_all m (image.y / sy) _ h3']
  by_cases h4 : m.new_image = true
  swap
  · simp [h4]
  by_cases h5 : m.barrier = true
  swap
  · simp [h4, h5]
  exfalso
  rcases h with h | h | ⟨i, hi, hf⟩ | h | h
  · rw [h1] at h; cases h
  · rw [h2] at h; cases h
  · exact h3 ⟨i, List.mem_range.mpr (by omega), hf⟩
  · rw [h4] at h; cases h
  · rw [h5] at h; cases h

/-- C14, when the allocation of the pixel buffer of the rescaled bitmap (line
243) fails and every other allocation succeeds: the test of line 244 looks at
`new_image` again, so `initialize_image_data_and_barrier` returns the shared
record, with a null pixel buffer, instead of ending the process. -/
theorem C14_pixel_buffer_failure_undetected (junk : fresh_memory) (image : ppm_image)
    (sx sy : Nat) :
    pixel_buffer_fails.new_image_data = false ∧
    ∃ d, initialize_image_data_and_barrier pixel_buffer_fails junk image sx sy = .ok d ∧
      d.new_image_alloc = none ∧ d.scaled_image = .to_new_image := by
  refine ⟨rfl,
    { image := image
      contour_map := junk.map
      new_image := { x := RESCALE_X, y := RESCALE_Y, data := junk.pixels }
      scaled_image := .to_new_image
      step_x := sx
      step_y := sy
      grid := junk.grid
      grid_alloc := (List.range (image.x / sx + 1)).map fun _ => image.y / sy + 1
      new_image_alloc := none }, ?_, rfl, rfl⟩
  unfold initialize_image_data_and_barrier
  simp only [alloc_grid_lines_all pixel_buffer_fails (image.y / sy) _ (fun _ _ => rfl)]
  rfl

/-! ## The pool and `main`: lemmas -/

/-- The loop of `init_contour_map` stores the 16 tiles and changes nothing
else. -/
theorem init_contour_map_eq (read_ppm : String → ppm_image) (d : data) :
    init_contour_map read_ppm d
      = { d with
          contour_map := apply_writes d.contour_map
            ((List.range CONTOUR_CONFIG_COUNT).map fun i => (i, read_ppm (contour_filename i))) } := by
  unfold init_contour_map
  generalize List.range CONTOUR_CONFIG_COUNT = l
  induction l generalizing d with
  | nil => rfl
  | cons i l ih =>
    rw [List.foldl_cons, ih]
    rfl

/-- After `init_contour_map`, tile `k < 16` is the bitmap read from file `k`. -/
theorem init_contour_map_tile (read_ppm : String → ppm_image) (d : data) (k : Nat)
    (hk : k < CONTOUR_CONFIG_COUNT) :
    (init_contour_map read_ppm d).contour_map k = read_ppm (contour_filename k) := by
  rw [init_contour_map_eq]
  show apply_writes d.contour_map _ k = _
  apply apply_writes_touched
  · intro w hw hwk
    obtain ⟨i, _, rfl⟩ := List.mem_map.mp hw
    simp only at hwk
    rw [hwk]
  · exact ⟨(k, read_ppm (contour_filename k)),
      List.mem_map.mpr ⟨k, List.mem_range.mpr hk, rfl⟩, rfl⟩

/-- When the source fits the rescale target, the first step of the workers
only makes `scaled_image` point to the source. -/
theorem rescale_phase_small (bicubic : ppm_image → Nat → Nat → Nat → Nat → ppm_pixel)
    (P : Nat) (order : List Nat) (hne : order ≠ []) (d : data)
    (h : d.image.x ≤ RESCALE_X ∧ d.image.y ≤ RESCALE_Y) :
    run_phase (thread_function_rescale bicubic) P order d = { d with scaled_image := .to_image } := by
  unfold run_phase
  induction order generalizing d with
  | nil => exact absurd rfl hne
  | cons id rest ih =>
    rw [List.foldl_cons, thread_function_rescale_small bicubic ⟨id, P⟩ d h]
    by_cases hrest : rest = []
    · subst hrest
      rfl
    · exact ih hrest _ h

theorem perm_range_ne_nil {P : Nat} (hP : 1 ≤ P) {order : List Nat}
    (h : order.Perm (List.range P)) : order ≠ [] := by
  intro he
  have := perm_range_mem h 0 (by omega)
  rw [he] at this
  cases this

/-- A pixel `(r, c)`, `c < y`, outside the blocks is no pixel of a block. -/
theorem outside_blocks_ne {sx sy x y r c : Nat} (hc : c < y)
    (hout : x / sx * sx ≤ r ∨ y / sy * sy ≤ c) {i j a b : Nat} (hi : i < x / sx)
    (hj : j < y / sy) (ha : a < sx) (hb : b < sy) :
    ((r * y + c : Nat) : Int) ≠ image_pixel_index y (i * sx) (j * sy) a b := by
  intro h
  unfold image_pixel_index at h
  have h := Int.ofNat_inj.mp h
  have h1 := succ_mul_le_of_lt_div hj
  have e1 : (j + 1) * sy = j * sy + sy := by ring
  have hcb : j * sy + b < y := by omega
  have h3 : r * y + c = (i * sx + a) * y + (j * sy + b) := by omega
  obtain ⟨hr, hcc⟩ := mul_add_unique hc hcb h3
  have hi' : (i + 1) * sx ≤ x / sx * sx := Nat.mul_le_mul_right _ hi
  have e2 : (i + 1) * sx = i * sx + sx := by ring
  have hj' : (j + 1) * sy ≤ y / sy * sy := Nat.mul_le_mul_right _ hj
  rcases hout with ho | ho
  · omega
  · omega

/-- What `init_contour_map` leaves alone. -/
theorem init_contour_map_frame (read_ppm : String → ppm_image) (d : data) :
    (init_contour_map read_ppm d).image = d.image ∧
    (init_contour_map read_ppm d).step_x = d.step_x ∧
    (init_contour_map read_ppm d).step_y = d.step_y ∧
    (init_contour_map read_ppm d).scaled_image = d.scaled_image ∧
    (init_contour_map read_ppm d).new_image = d.new_image ∧
    (init_contour_map read_ppm d).grid_alloc = d.grid_alloc := by
  rw [init_contour_map_eq]
  exact ⟨rfl, rfl, rfl, rfl, rfl, rfl⟩

/-- When the source fits the rescale target, after the first step of the
workers the working bitmap is the source; tiles and steps are unchanged. -/
theorem rescale_phase_small_frame (bicubic : ppm_image → Nat → Nat → Nat → Nat → ppm_pixel)
    (P : Nat) (order : List Nat) (hne : order ≠ []) (d : data)
    (h : d.image.x ≤ RESCALE_X ∧ d.image.y ≤ RESCALE_Y) :
    working (run_phase (thread_function_rescale bicubic) P order d) = d.image ∧
    (run_phase (thread_function_rescale bicubic) P order d).contour_map = d.contour_map ∧
    (run_phase (thread_function_rescale bicubic) P order d).step_x = d.step_x ∧
    (run_phase (thread_function_rescale bicubic) P order d).step_y = d.step_y ∧
    (run_phase (thread_function_rescale bicubic) P order d).grid_alloc = d.grid_alloc := by
  rw [rescale_phase_small bicubic P order hne d h]
  exact ⟨rfl, rfl, rfl, rfl, rfl⟩

/-- After a sampling phase in which every worker ran, the grid holds zeros and
ones. -/
theorem sample_phase_binary (P : Nat) (hP : 1 ≤ P) (order : List Nat)
    (horder : order.Perm (List.range P)) (d : data) :
    ∀ i j, i ≤ (working (sample_phase P order d)).x / (sample_phase P order d).step_x →
      j ≤ (working (sample_phase P order d)).y / (sample_phase P order d).step_y →
      (sample_phase P order d).grid (i, j) ≤ 1 := by
  rw [sample_phase_full P hP order (perm_range_lt horder) (perm_range_mem horder) d]
  exact sampled_grid_binary (working d) d.step_x d.step_y d.grid

/-- The three phases on a source that fits the rescale target, with tiles of
`step_x × step_y` pixels: the working bitmap keeps the dimensions of the
source, and the pixels outside the blocks keep their value. -/
theorem run_workers_small (bicubic : ppm_image → Nat → Nat → Nat → Nat → ppm_pixel)
    (P : Nat) (hP : 1 ≤ P) (r_order s_order m_order : List Nat)
    (hr : r_order.Perm (List.range P)) (hs : s_order.Perm (List.range P))
    (hm : m_order.Perm (List.range P)) (d : data)
    (hsmall : d.image.x ≤ RESCALE_X ∧ d.image.y ≤ RESCALE_Y)
    (htiles : ∀ k, k < CONTOUR_CONFIG_COUNT →
      (d.contour_map k).x = d.step_x ∧ (d.contour_map k).y = d.step_y) :
    (working (run_workers bicubic P r_order s_order m_order d)).x = d.image.x ∧
    (working (run_workers bicubic P r_order s_order m_order d)).y = d.image.y ∧
    ∀ r c, c < d.image.y →
      (d.image.x / d.step_x * d.step_x ≤ r ∨ d.image.y / d.step_y * d.step_y ≤ c) →
      (working (run_workers bicubic P r_order s_order m_order d)).data
          (((r * d.image.y + c : Nat) : Int))
        = d.image.data (((r * d.image.y + c : Nat) : Int)) := by
  unfold run_workers
  obtain ⟨a1, a2, a3, a4, _⟩ :=
    rescale_phase_small_frame bicubic P r_order (perm_range_ne_nil hP hr) d hsmall
  obtain ⟨_, _, _, b4, b5, b6, b7⟩ :=
    sample_phase_frame P s_order (run_phase (thread_function_rescale bicubic) P r_order d)
  have hbin := sample_phase_binary P hP s_order hs
    (run_phase (thread_function_rescale bicubic) P r_order d)
  obtain ⟨_, _, _, _, _, fx, fy⟩ := march_phase_frame P m_order
    (sample_phase P s_order (run_phase (thread_function_rescale bicubic) P r_order d))
  have hw : working (sample_phase P s_order
      (run_phase (thread_function_rescale bicubic) P r_order d)) = d.image := b7.trans a1
  have hsx : (sample_phase P s_order
      (run_phase (thread_function_rescale bicubic) P r_order d)).step_x = d.step_x :=
    b5.trans a3
  have hsy : (sample_phase P s_order
      (run_phase (thread_function_rescale bicubic) P r_order d)).step_y = d.step_y :=
    b6.trans a4
  have htiles2 : ∀ k, k < CONTOUR_CONFIG_COUNT →
      ((sample_phase P s_order
          (run_phase (thread_function_rescale bicubic) P r_order d)).contour_map k).x
        = (sample_phase P s_order
          (run_phase (thread_function_rescale bicubic) P r_order d)).step_x ∧
      ((sample_phase P s_order
          (run_phase (thread_function_rescale bicubic) P r_order d)).contour_map k).y
        = (sample_phase P s_order
          (run_phase (thread_function_rescale bicubic) P r_order d)).step_y := by
    intro k hk
    rw [b4, a2, hsx, hsy]
    exact htiles k hk
  refine ⟨by rw [fx, hw], by rw [fy, hw], ?_⟩
  intro r c hc hout
  rw [march_phase_untouched P hP m_order (perm_range_lt hm) _ htiles2 hbin, hw]
  intro i j a b hi hj ha hb
  rw [hw, hsx] at hi
  rw [hw, hsy] at hj
  rw [hsx] at ha
  rw [hsy] at hb
  rw [hw, hsx, hsy]
  exact outside_blocks_ne hc hout hi hj ha hb

/-- C13: for a source of at most 2048 x 2048 and tiles of 8 x 8 pixels, after
initialisation, the loading of the tiles and the three phases of `P ≥ 1`
workers (each phase in any order), the bitmap handed to the writer has the
dimensions of the source, and every pixel `data[r * y + c]`, `c < y`, with
`r ≥ (x / 8) * 8` or `c ≥ (y / 8) * 8` is the pixel of the source at the same
index. -/
theorem C13_unstamped_pixels_kept (junk : fresh_memory)
    (bicubic : ppm_image → Nat → Nat → Nat → Nat → ppm_pixel) (read_ppm : String → ppm_image)
    (image : ppm_image) (P : Nat) (hP : 1 ≤ P) (r_order s_order m_order : List Nat)
    (hr : r_order.Perm (List.range P)) (hs : s_order.Perm (List.range P))
    (hm : m_order.Perm (List.range P))
    (hsmall : image.x ≤ RESCALE_X ∧ image.y ≤ RESCALE_Y)
    (htiles : ∀ k, k < CONTOUR_CONFIG_COUNT →
      (read_ppm (contour_filename k)).x = STEP ∧ (read_ppm (contour_filename k)).y = STEP) :
    ∃ d, initialize_image_data_and_barrier malloc_ok junk image STEP STEP = .ok d ∧
      (working (run_workers bicubic P r_order s_order m_order (init_contour_map read_ppm d))).x
        = image.x ∧
      (working (run_workers bicubic P r_order s_order m_order (init_contour_map read_ppm d))).y
        = image.y ∧
      ∀ r c, c < image.y → (image.x / STEP * STEP ≤ r ∨ image.y / STEP * STEP ≤ c) →
        (working (run_workers bicubic P r_order s_order m_order
            (init_contour_map read_ppm d))).data (((r * image.y + c : Nat) : Int))
          = image.data (((r * image.y + c : Nat) : Int)) := by
  refine ⟨_, initialize_ok junk image STEP STEP, ?_⟩
  obtain ⟨c1, c2, c3, _⟩ := init_contour_map_frame read_ppm
    { image := image, contour_map := junk.map,
      new_image := { x := RESCALE_X, y := RESCALE_Y, data := junk.pixels },
      scaled_image := .to_new_image, step_x := STEP, step_y := STEP, grid := junk.grid,
      grid_alloc := (List.range (image.x / STEP + 1)).map fun _ => image.y / STEP + 1,
      new_image_alloc := some (RESCALE_X * RESCALE_Y) }
  have key := run_workers_small bicubic P hP r_order s_order m_order hr hs hm
    (init_contour_map read_ppm
      { image := image, contour_map := junk.map,
        new_image := { x := RESCALE_X, y := RESCALE_Y, data := junk.pixels },
        scaled_image := .to_new_image, step_x := STEP, step_y := STEP, grid := junk.grid,
        grid_alloc := (List.range (image.x / STEP + 1)).map fun _ => image.y / STEP + 1,
        new_image_alloc := some (RESCALE_X * RESCALE_Y) })
    (by rw [c1]; exact hsmall)
    (by
      intro k hk
      rw [init_contour_map_tile read_ppm _ k hk, c2, c3]
      exact htiles k hk)
  rw [c1, c2, c3] at key
  exact key

theorem C13_unstamped_pixels_kept_witness :
    1 ≤ 2 ∧ [1, 0].Perm (List.range 2) ∧
    (bitmap 20 12 (fun _ => white) black).x ≤ RESCALE_X ∧
    (bitmap 20 12 (fun _ => white) black).y ≤ RESCALE_Y ∧
    ∃ d, initialize_image_data_and_barrier malloc_ok plain_environment.junk
        (bitmap 20 12 (fun _ => white) black) STEP STEP = .ok d ∧
      (working (run_workers plain_environment.sample_bicubic 2 [1, 0] [0, 1] [1, 0]
        (init_contour_map plain_environment.read_ppm d))).x
        = (bitmap 20 12 (fun _ => white) black).x ∧
      (working (run_workers plain_environment.sample_bicubic 2 [1, 0] [0, 1] [1, 0]
        (init_contour_map plain_environment.read_ppm d))).y
        = (bitmap 20 12 (fun _ => white) black).y ∧
      ∀ r c, c < (bitmap 20 12 (fun _ => white) black).y →
        ((bitmap 20 12 (fun _ => white) black).x / STEP * STEP ≤ r ∨
          (bitmap 20 12 (fun _ => white) black).y / STEP * STEP ≤ c) →
        (working (run_workers plain_environment.sample_bicubic 2 [1, 0] [0, 1] [1, 0]
            (init_contour_map plain_environment.read_ppm d))).data
            (((r * (bitmap 20 12 (fun _ => white) black).y + c : Nat) : Int))
          = (bitmap 20 12 (fun _ => white) black).data
            (((r * (bitmap 20 12 (fun _ => white) black).y + c : Nat) : Int)) :=
  ⟨by decide, by decide, by decide, by decide,
    C13_unstamped_pixels_kept plain_environment.junk plain_environment.sample_bicubic
      plain_environment.read_ppm (bitmap 20 12 (fun _ => white) black) 2 (by decide)
      [1, 0] [0, 1] [1, 0] (by decide) (by decide) (by decide) ⟨by decide, by decide⟩
      (fun _ _ => ⟨rfl, rfl⟩)⟩

/-! ## The command line -/

/-- C16: with fewer than 3 user arguments (`argc < 4`) `main` returns 1 after
the usage line, having read no bitmap, created no worker and written no
output. -/
theorem C16_usage_error (env : environment) (argv : List String) (h : argv.length < 4) :
    (main env argv).status = some 1 ∧
    (main env argv).stderr = ["Usage: ./tema1 <in_file> <out_file> <P>"] ∧
    (main env argv).read_ppm_calls = [] ∧
    (main env argv).workers = [] ∧
    (main env argv).write_ppm_calls = [] := by
  unfold main
  rw [if_pos h]
  exact ⟨rfl, rfl, rfl, rfl, rfl⟩

theorem C16_usage_error_witness :
    ["./tema1", "in.ppm", "out.ppm"].length < 4 ∧
    (main plain_environment ["./tema1", "in.ppm", "out.ppm"]).status = some 1 ∧
    (main plain_environment ["./tema1", "in.ppm", "out.ppm"]).stderr
      = ["Usage: ./tema1 <in_file> <out_file> <P>"] ∧
    (main plain_environment ["./tema1", "in.ppm", "out.ppm"]).read_ppm_calls = [] ∧
    (main plain_environment ["./tema1", "in.ppm", "out.ppm"]).workers = [] ∧
    (main plain_environment ["./tema1", "in.ppm", "out.ppm"]).write_ppm_calls = [] :=
  ⟨by decide, C16_usage_error plain_environment ["./tema1", "in.ppm", "out.ppm"] (by decide)⟩

/-- The value of `atoi` is a 32-bit `int`; a text that denotes a number
outside that range is read as another number. -/
theorem atoi_is_int (s : String) : -2147483648 ≤ atoi s ∧ atoi s < 2147483648 := by
  unfold atoi to_int
  omega

theorem atoi_wraps : atoi "-4294967295" = 1 ∧ atoi "4294967296" = 0 ∧
    atoi "99999999999999999999" = -1 := by
  decide

/-- A text whose first character after the white space is neither a sign nor
a digit is read as 0 by `atoi`. -/
theorem atoi_non_numeric (s : String) (c : Char) (rest : List Char)
    (h : s.toList.dropWhile isspace = c :: rest) (hminus : c ≠ '-') (hplus : c ≠ '+')
    (hdigit : ¬ (48 ≤ c.toNat ∧ c.toNat ≤ 57)) : atoi s = 0 := by
  have hv : strtol s = 0 := by
    unfold strtol
    rw [h]
    split
    · next heq => exact absurd (List.cons.inj heq).1 hminus
    · next heq => exact absurd (List.cons.inj heq).1 hplus
    · simp [atoi_digits, hdigit]
  unfold atoi
  rw [hv]
  decide

/-- Neither the sampling nor the marching changes what was allocated for the
grid. -/
theorem phases_grid_alloc (P : Nat) (s_order m_order : List Nat) (d : data) :
    (march_phase P m_order (sample_phase P s_order d)).grid_alloc = d.grid_alloc := by
  rw [march_phase_eq]
  refine (set_working_frame _ _).2.2.2.2.2.1.trans ?_
  rw [sample_phase_eq]

/-- For a source that fits the rescale target and at least one worker, the
loop of line 153 frees the grid lines that were allocated and no other. -/
theorem free_resources_small (bicubic : ppm_image → Nat → Nat → Nat → Nat → ppm_pixel)
    (P : Nat) (r_order s_order m_order : List Nat) (hne : r_order ≠ []) (d : data)
    (hsmall : d.image.x ≤ RESCALE_X ∧ d.image.y ≤ RESCALE_Y)
    (hlen : d.grid_alloc.length = d.image.x / d.step_x + 1) :
    free_resources_in_bounds (run_workers bicubic P r_order s_order m_order d) = true := by
  unfold free_resources_in_bounds run_workers
  obtain ⟨a1, _, a3, _, a5⟩ := rescale_phase_small_frame bicubic P r_order hne d hsmall
  obtain ⟨_, _, _, _, b5, _, b7⟩ :=
    sample_phase_frame P s_order (run_phase (thread_function_rescale bicubic) P r_order d)
  obtain ⟨_, _, c3, _, _, c6, _⟩ := march_phase_frame P m_order
    (sample_phase P s_order (run_phase (thread_function_rescale bicubic) P r_order d))
  rw [phases_grid_alloc, a5, hlen, c6, b7, a1, c3, b5, a3]
  exact decide_eq_true (Nat.lt_succ_self _)

/-- For a positive worker count, allocations that succeed and a source that
fits the rescale target, `main` creates the workers `0 .. P - 1`, calls the
writer once with the working bitmap and the path `argv[2]`, and returns 0. -/
theorem main_runs (env : environment) (argv : List String) (hargs : 4 ≤ argv.length)
    (hcount : 0 < atoi (argv.getD 3 "")) (halloc : env.mallocs = malloc_ok)
    (hsmall : (env.read_ppm (argv.getD 1 "")).x ≤ RESCALE_X ∧
      (env.read_ppm (argv.getD 1 "")).y ≤ RESCALE_Y) :
    (main env argv).status = some 0 ∧ (main env argv).stderr = [] ∧
    (main env argv).workers = List.range (atoi (argv.getD 3 "")).toNat ∧
    ((main env argv).write_ppm_calls.map Prod.snd) = [argv.getD 2 ""] := by
  have hne : List.range (atoi (argv.getD 3 "")).toNat ≠ [] := by
    intro h
    have := List.range_eq_nil.mp h
    omega
  have hfree := free_resources_small env.sample_bicubic (atoi (argv.getD 3 "")).toNat
    (List.range (atoi (argv.getD 3 "")).toNat) (List.range (atoi (argv.getD 3 "")).toNat)
    (List.range (atoi (argv.getD 3 "")).toNat) hne
    (init_contour_map env.read_ppm
      { image := env.read_ppm (argv.getD 1 "")
        contour_map := env.junk.map
        new_image := { x := RESCALE_X, y := RESCALE_Y, data := env.junk.pixels }
        scaled_image := .to_new_image
        step_x := STEP
        step_y := STEP
        grid := env.junk.grid
        grid_alloc := (List.range ((env.read_ppm (argv.getD 1 "")).x / STEP + 1)).map
          fun _ => (env.read_ppm (argv.getD 1 "")).y / STEP + 1
        new_image_alloc := some (RESCALE_X * RESCALE_Y) })
    (by
      rw [(init_contour_map_frame _ _).1]
      exact hsmall)
    (by
      rw [(init_contour_map_frame _ _).2.2.2.2.2, (init_contour_map_frame _ _).1,
        (init_contour_map_frame _ _).2.1]
      simp)
  unfold main
  rw [if_neg (by omega), halloc]
  simp only [initialize_ok]
  rw [if_neg (fun h => absurd h.1 (not_le.mpr hcount))]
  refine ⟨?_, rfl, rfl, rfl⟩
  show (if _ then some 0 else none) = some 0
  rw [if_pos hfree]

/-! ## Bounds of the accesses -/

/-- The values `sample_grid` stores are the thresholds of the pixels at
`sample_reads`, with the 0 of line 93 after the interior. -/
theorem sample_writes_values (im : ppm_image) (sx sy : Nat) (t : thread_data) :
    (sample_writes im sx sy t).map Prod.snd
      = (sample_interior_reads im sx sy t).map (fun z => sample_value (im.data z))
        ++ [0]
        ++ (sample_column_reads im sx).map (fun z => sample_value (im.data z))
        ++ (sample_line_reads im sy).map (fun z => sample_value (im.data z)) := by
  simp only [sample_writes, sample_interior_writes, sample_border_writes, sample_interior_reads,
    sample_column_reads, sample_line_reads, List.map_append, List.map_map, List.map_flatMap,
    List.map_cons, List.map_nil, List.append_assoc]
  rfl

/-- The index of a sample of the last column lies in the bitmap when the
bitmap has no more lines than a line has pixels. -/
theorem column_index_bounds (sx x y : Nat) {i : Nat} (hxy : x ≤ y) (hi : i < x / sx) :
    0 ≤ column_index sx x y i ∧ column_index sx x y i < ((x * y : Nat) : Int) := by
  unfold column_index
  have h1 := succ_mul_le_of_lt_div hi
  have e1 : (i + 1) * sx = i * sx + sx := by ring
  have hsx : 0 < sx := by
    rcases Nat.eq_zero_or_pos sx with h | h
    · subst h; simp at hi
    · exact h
  obtain ⟨x', rfl⟩ : ∃ x', x = x' + 1 := ⟨x - 1, by omega⟩
  have h2 : i * sx * y ≤ x' * y := Nat.mul_le_mul_right y (by omega)
  have e2 : (x' + 1) * y = x' * y + y := by ring
  have h3 : (0 : Int) ≤ ((i * sx * y : Nat) : Int) := Int.ofNat_nonneg _
  have h4 : ((i * sx * y : Nat) : Int) ≤ ((x' * y : Nat) : Int) := Int.ofNat_le.mpr h2
  have h5 : (((x' + 1) * y : Nat) : Int) = ((x' * y : Nat) : Int) + (y : Int) := by
    rw [e2]; push_cast; ring
  have h6 : (((x' + 1 : Nat)) : Int) = (x' : Int) + 1 := by push_cast; ring
  have h7 : (x' : Int) + 1 ≤ (y : Int) := by exact_mod_cast hxy
  constructor
  · omega
  · omega

/-- With at least one line and no more lines than pixels in a line, every
pixel index `sample_grid` reads lies in the bitmap. -/
theorem sample_reads_in_bounds (im : ppm_image) (sx sy : Nat) (t : thread_data) {P : Nat}
    (hP : 1 ≤ P) (hid : t.thread_id < P) (ht : t.no_threads = P) (hx : 1 ≤ im.x)
    (hxy : im.x ≤ im.y) (z : Int) (hz : z ∈ sample_reads im sx sy t) :
    0 ≤ z ∧ z < ((im.x * im.y : Nat) : Int) := by
  simp only [sample_reads, sample_interior_reads, sample_column_reads, sample_line_reads,
    List.mem_append, List.mem_flatMap, List.mem_map, List.mem_range, List.mem_range'_1] at hz
  rcases hz with (⟨i, ⟨h1, h2⟩, j, hj, rfl⟩ | ⟨i, hi, rfl⟩) | ⟨j, hj, rfl⟩
  · have hend := range_end_le (im.x / sx) hP t.thread_id hid
    rw [ht] at h1 h2
    exact interior_index_bounds sx sy im.x im.y (by omega) hj
  · exact column_index_bounds sx im.x im.y hxy hi
  · exact line_index_bounds sy im.x im.y hx hj

/-- C19, at the bitmap of 16 lines of 1 pixel (`x = 16 ≥ 1`, `y = 1 ≥ 1`,
16 pixels): for `i = 1` the loop of lines 95-105 reads index
`1 * 8 * 1 + 16 - 1 = 23`, which is not below `x * y = 16`. -/
theorem C19_column_read_outside :
    1 ≤ (working (state_of c5_bitmap)).x ∧ 1 ≤ (working (state_of c5_bitmap)).y ∧
    (working (state_of c5_bitmap)).x * (working (state_of c5_bitmap)).y = 16 ∧
    (23 : Int) ∈ sample_reads (working (state_of c5_bitmap)) (state_of c5_bitmap).step_x
      (state_of c5_bitmap).step_y ⟨0, 1⟩ ∧
    ¬ ((23 : Int) < ((16 : Nat) : Int)) := by
  decide

/-- The pixel index of offset `(a, b)` of the block of cell `(i, j)` lies in
the bitmap. -/
theorem image_pixel_index_bounds {sx sy x y i j a b : Nat} (hi : i < x / sx) (hj : j < y / sy)
    (ha : a < sx) (hb : b < sy) :
    0 ≤ image_pixel_index y (i * sx) (j * sy) a b ∧
    image_pixel_index y (i * sx) (j * sy) a b < ((x * y : Nat) : Int) := by
  unfold image_pixel_index
  have h1 := succ_mul_le_of_lt_div hi
  have h2 := succ_mul_le_of_lt_div hj
  have e1 : (i + 1) * sx = i * sx + sx := by ring
  have e2 : (j + 1) * sy = j * sy + sy := by ring
  have h3 : (i * sx + a + 1) * y ≤ x * y := Nat.mul_le_mul_right y (by omega)
  have e3 : (i * sx + a + 1) * y = (i * sx + a) * y + y := by ring
  refine ⟨Int.ofNat_nonneg _, Int.ofNat_lt.mpr ?_⟩
  omega

/-- C18: with tiles of `step_x × step_y` pixels (8 x 8 in the program) and a
grid of zeros and ones, for every worker `id < P` of `march`: every cell of
the grid it reads, up to `[i + 1][j + 1]`, lies in the `(p + 1) × (q + 1)`
grid; every tile index it looks up is below 16; and every pixel index it
stores to lies in `[0, x * y)`. -/
theorem C18_march_accesses_in_bounds (P : Nat) (hP : 1 ≤ P) (id : Nat) (hid : id < P)
    (d : data)
    (htiles : ∀ k, k < CONTOUR_CONFIG_COUNT →
      (d.contour_map k).x = d.step_x ∧ (d.contour_map k).y = d.step_y)
    (hgrid : ∀ i j, i ≤ (working d).x / d.step_x → j ≤ (working d).y / d.step_y →
      d.grid (i, j) ≤ 1) :
    (∀ c ∈ march_grid_reads ⟨id, P⟩ d,
      c.1 < (working d).x / d.step_x + 1 ∧ c.2 < (working d).y / d.step_y + 1) ∧
    (∀ k ∈ march_tile_lookups ⟨id, P⟩ d, k < CONTOUR_CONFIG_COUNT) ∧
    (∀ z ∈ march_indices ⟨id, P⟩ d,
      0 ≤ z ∧ z < (((working d).x * (working d).y : Nat) : Int)) := by
  have hend := range_end_le ((working d).x / d.step_x) hP id hid
  refine ⟨?_, ?_, ?_⟩
  · intro c hc
    simp only [march_grid_reads, List.mem_flatMap, List.mem_range, List.mem_range'_1,
      List.mem_cons, List.mem_singleton, List.not_mem_nil, or_false] at hc
    obtain ⟨i, ⟨h1, h2⟩, j, hj, hcase⟩ := hc
    rcases hcase with rfl | rfl | rfl | rfl
    · exact ⟨by show i < _; omega, by show j < _; omega⟩
    · exact ⟨by show i < _; omega, by show j + 1 < _; omega⟩
    · exact ⟨by show i + 1 < _; omega, by show j + 1 < _; omega⟩
    · exact ⟨by show i + 1 < _; omega, by show j < _; omega⟩
  · intro k hk
    simp only [march_tile_lookups, List.mem_flatMap, List.mem_map, List.mem_range,
      List.mem_range'_1] at hk
    obtain ⟨i, ⟨h1, h2⟩, j, hj, rfl⟩ := hk
    exact cell_index_lt hgrid (by omega) hj
  · intro z hz
    obtain ⟨w, hw, rfl⟩ := List.mem_map.mp hz
    obtain ⟨i, j, a, b, _, _, hi, hj, ha, hb, h1, _⟩ := march_writes_sound hP hid htiles hgrid hw
    rw [h1]
    exact image_pixel_index_bounds hi hj ha hb

theorem C18_march_accesses_in_bounds_witness :
    1 ≤ 2 ∧ 1 < 2 ∧
    ((∀ c ∈ march_grid_reads ⟨1, 2⟩ marching_input,
      c.1 < (working marching_input).x / marching_input.step_x + 1 ∧
      c.2 < (working marching_input).y / marching_input.step_y + 1) ∧
    (∀ k ∈ march_tile_lookups ⟨1, 2⟩ marching_input, k < CONTOUR_CONFIG_COUNT) ∧
    (∀ z ∈ march_indices ⟨1, 2⟩ marching_input,
      0 ≤ z ∧ z < (((working marching_input).x * (working marching_input).y : Nat) : Int))) :=
  ⟨by decide, by decide,
    C18_march_accesses_in_bounds 2 (by decide) 1 (by decide) marching_input
      (fun _ _ => ⟨rfl, rfl⟩)
      (fun i j _ _ => Nat.le_of_lt_succ (Nat.mod_lt (i + j) (by decide)))⟩

/-- Every pixel of the target of `rescale_image` is stored to by exactly one
worker. -/
theorem rescale_pixel_owner (bicubic : ppm_image → Nat → Nat → Nat → Nat → ppm_pixel)
    (image : ppm_image) (sx sy P : Nat) (hP : 1 ≤ P) (i j : Nat) (hi : i < sx) (hj : j < sy) :
    ∃! id, id < P ∧
      ((i * sy + j : Nat) : Int) ∈ (rescale_writes bicubic image sx sy ⟨id, P⟩).map Prod.fst := by
  obtain ⟨id, hid, h1, h2⟩ := rescale_cover sx hP hi
  refine ⟨id, ⟨hid, List.mem_map.mpr
    ⟨_, mem_rescale_writes.mpr ⟨i, j, h1, h2, hj, rfl⟩, rfl⟩⟩, ?_⟩
  rintro b ⟨hb, hmem⟩
  obtain ⟨w, hw, hwz⟩ := List.mem_map.mp hmem
  obtain ⟨i', j', g1, g2, hj', rfl⟩ := mem_rescale_writes.mp hw
  have e : i' * sy + j' = i * sy + j := Int.ofNat_inj.mp hwz
  obtain ⟨rfl, _⟩ := mul_add_unique hj' hj e
  exact rescale_disjoint sx hb hid ⟨g1, g2⟩ ⟨h1, h2⟩

/-! ## Two runs on the same bitmap -/

/-- Two bitmaps of the same dimensions with the same pixels give the same
samples, as long as the bitmap has a line and no more lines than a line has
pixels, so that every read of `sample_grid` stays inside the buffer. -/
theorem sample_expected_congr (im im' : ppm_image) (sx sy : Nat) (hx : im'.x = im.x)
    (hy : im'.y = im.y)
    (hagree : ∀ z : Int, 0 ≤ z → z < ((im.x * im.y : Nat) : Int) → im.data z = im'.data z)
    (h1 : 1 ≤ im.x) (hxy : im.x ≤ im.y) (c : Nat × Nat) :
    sample_expected im sx sy c = sample_expected im' sx sy c := by
  simp only [sample_expected, hx, hy]
  by_cases ha : c.1 < im.x / sx ∧ c.2 < im.y / sy
  · obtain ⟨b1, b2⟩ := interior_index_bounds sx sy im.x im.y ha.1 ha.2
    rw [if_pos ha, if_pos ha, hagree _ b1 b2]
  · by_cases hb : c.1 < im.x / sx ∧ c.2 = im.y / sy
    · obtain ⟨b1, b2⟩ := column_index_bounds sx im.x im.y hxy hb.1
      rw [if_neg ha, if_neg ha, if_pos hb, if_pos hb, hagree _ b1 b2]
    · by_cases hc : c.1 = im.x / sx ∧ c.2 < im.y / sy
      · obtain ⟨b1, b2⟩ := line_index_bounds sy im.x im.y h1 hc.2
        rw [if_neg ha, if_neg ha, if_neg hb, if_neg hb, if_pos hc, if_pos hc, hagree _ b1 b2]
      · rw [if_neg ha, if_neg ha, if_neg hb, if_neg hb, if_neg hc, if_neg hc]

/-- Determinism across worker counts where every read stays inside the
bitmap: two states with the same tiles, steps and bitmap (at least one line,
no more lines than pixels in a line), whatever lies next to their buffers and
in their grids, get the same grid and the same pixels from `P` workers in any
order and from one worker. -/
theorem worker_count_independent_in_bounds (P : Nat) (hP : 1 ≤ P)
    (s_order m_order : List Nat) (hs : s_order.Perm (List.range P))
    (hm : m_order.Perm (List.range P)) (d d' : data)
    (hx : (working d').x = (working d).x) (hy : (working d').y = (working d).y)
    (hsx : d'.step_x = d.step_x) (hsy : d'.step_y = d.step_y)
    (hcm : d'.contour_map = d.contour_map)
    (hagree : ∀ z : Int, 0 ≤ z → z < (((working d).x * (working d).y : Nat) : Int) →
      (working d).data z = (working d').data z)
    (h1 : 1 ≤ (working d).x) (hxy : (working d).x ≤ (working d).y)
    (htiles : ∀ k, k < CONTOUR_CONFIG_COUNT →
      (d.contour_map k).x = d.step_x ∧ (d.contour_map k).y = d.step_y) :
    (∀ i j, i ≤ (working d).x / d.step_x → j ≤ (working d).y / d.step_y →
      (march_phase P m_order (sample_phase P s_order d)).grid (i, j)
        = (march_phase 1 [0] (sample_phase 1 [0] d')).grid (i, j)) ∧
    (∀ z : Int, 0 ≤ z → z < (((working d).x * (working d).y : Nat) : Int) →
      (working (march_phase P m_order (sample_phase P s_order d))).data z
        = (working (march_phase 1 [0] (sample_phase 1 [0] d'))).data z) := by
  have one : [0].Perm (List.range 1) := List.Perm.refl _
  -- the grids after sampling agree on the `(p+1) × (q+1)` cells
  have hgrid : ∀ i j, i ≤ (working d).x / d.step_x → j ≤ (working d).y / d.step_y →
      (sample_phase P s_order d).grid (i, j) = (sample_phase 1 [0] d').grid (i, j) := by
    intro i j hi hj
    rw [sample_phase_grid P hP s_order (perm_range_lt hs) (perm_range_mem hs) d,
      sample_phase_grid 1 (le_refl 1) [0] (perm_range_lt one) (perm_range_mem one) d']
    rw [hx, hy, hsx, hsy, if_pos ⟨hi, hj⟩, if_pos ⟨hi, hj⟩]
    exact sample_expected_congr (working d) (working d') d.step_x d.step_y hx hy hagree h1 hxy _
  obtain ⟨_, _, _, a4, a5, a6, a7⟩ := sample_phase_frame P s_order d
  obtain ⟨_, _, _, b4, b5, b6, b7⟩ := sample_phase_frame 1 [0] d'
  have abin := sample_phase_binary P hP s_order hs d
  have bbin := sample_phase_binary 1 (le_refl 1) [0] one d'
  have atiles : ∀ k, k < CONTOUR_CONFIG_COUNT →
      ((sample_phase P s_order d).contour_map k).x = (sample_phase P s_order d).step_x ∧
      ((sample_phase P s_order d).contour_map k).y = (sample_phase P s_order d).step_y := by
    intro k hk
    rw [a4, a5, a6]
    exact htiles k hk
  have btiles : ∀ k, k < CONTOUR_CONFIG_COUNT →
      ((sample_phase 1 [0] d').contour_map k).x = (sample_phase 1 [0] d').step_x ∧
      ((sample_phase 1 [0] d').contour_map k).y = (sample_phase 1 [0] d').step_y := by
    intro k hk
    rw [b4, b5, b6, hcm, hsx, hsy]
    exact htiles k hk
  obtain ⟨fa, _⟩ := march_phase_frame P m_order (sample_phase P s_order d)
  obtain ⟨fb, _⟩ := march_phase_frame 1 [0] (sample_phase 1 [0] d')
  refine ⟨fun i j hi hj => by rw [fa, fb]; exact hgrid i j hi hj, ?_⟩
  intro z hz0 hz1
  by_cases hex : ∃ i j a b, i < (working d).x / d.step_x ∧ j < (working d).y / d.step_y ∧
      a < d.step_x ∧ b < d.step_y ∧
      z = image_pixel_index (working d).y (i * d.step_x) (j * d.step_y) a b
  · obtain ⟨i, j, a, b, hi, hj, ha, hb, rfl⟩ := hex
    have sa := march_phase_stamped P hP m_order (perm_range_lt hm) (perm_range_mem hm)
      (sample_phase P s_order d) atiles abin (i := i) (j := j) (a := a) (b := b)
      (by rw [a7, a5]; exact hi) (by rw [a7, a6]; exact hj) (by rw [a5]; exact ha)
      (by rw [a6]; exact hb)
    have sb := march_phase_stamped 1 (le_refl 1) [0] (perm_range_lt one) (perm_range_mem one)
      (sample_phase 1 [0] d') btiles bbin (i := i) (j := j) (a := a) (b := b)
      (by rw [b7, b5, hx, hsx]; exact hi) (by rw [b7, b6, hy, hsy]; exact hj)
      (by rw [b5, hsx]; exact ha) (by rw [b6, hsy]; exact hb)
    rw [a7, a5, a6] at sa
    rw [b7, b5, b6, hy, hsx, hsy] at sb
    have hk : cell_index (sample_phase P s_order d).grid i j
        = cell_index (sample_phase 1 [0] d').grid i j := by
      unfold cell_index
      rw [hgrid i j (by omega) (by omega), hgrid i (j + 1) (by omega) (by omega),
        hgrid (i + 1) (j + 1) (by omega) (by omega), hgrid (i + 1) j (by omega) (by omega)]
    rw [sa, sb, a4, b4, hcm, hk]
  · have ua := march_phase_untouched P hP m_order (perm_range_lt hm)
      (sample_phase P s_order d) atiles abin z (by
        intro i j a b hi hj ha hb he
        rw [a7, a5] at hi
        rw [a7, a6] at hj
        rw [a5] at ha
        rw [a6] at hb
        rw [a7, a5, a6] at he
        exact hex ⟨i, j, a, b, hi, hj, ha, hb, he⟩)
    have ub := march_phase_untouched 1 (le_refl 1) [0] (perm_range_lt one)
      (sample_phase 1 [0] d') btiles bbin z (by
        intro i j a b hi hj ha hb he
        rw [b7, b5, hx, hsx] at hi
        rw [b7, b6, hy, hsy] at hj
        rw [b5, hsx] at ha
        rw [b6, hsy] at hb
        rw [b7, b5, b6, hy, hsx, hsy] at he
        exact hex ⟨i, j, a, b, hi, hj, ha, hb, he⟩)
    rw [ua, ub, a7, b7]
    exact hagree z hz0 hz1

set_option maxRecDepth 1000000 in
/-- C2, at a white bitmap of 80 lines of 8 pixels (640 pixels, `p = 10`,
`q = 1`): for `i = 9` line 96 reads index `9 * 8 * 8 + 80 - 1 = 655`, past the
buffer.  Two runs on this bitmap, with the same tiles, whose memory next to
the buffer differs, one with 2 workers and one with 1 worker, leave different
cells `grid[9][1]`, select tiles 4 and 0 for the block of cell `(9, 0)`, and
leave different pixels at index `576`. -/
theorem C2_stray_read_breaks_determinism :
    (working c2_state_dark).x = 80 ∧ (working c2_state_dark).y = 8 ∧
    (working c2_state_bright).x = 80 ∧ (working c2_state_bright).y = 8 ∧
    (∀ z : Int, 0 ≤ z → z < 640 →
      (working c2_state_dark).data z = (working c2_state_bright).data z) ∧
    c2_state_dark.contour_map = c2_state_bright.contour_map ∧
    column_index c2_state_dark.step_x 80 8 9 = 655 ∧
    (sample_phase 2 [0, 1] c2_state_dark).grid (9, 1) = 1 ∧
    (sample_phase 1 [0] c2_state_bright).grid (9, 1) = 0 ∧
    cell_index (sample_phase 2 [0, 1] c2_state_dark).grid 9 0 = 4 ∧
    cell_index (sample_phase 1 [0] c2_state_bright).grid 9 0 = 0 ∧
    (working (march_phase 2 [1, 0] (sample_phase 2 [0, 1] c2_state_dark))).data 576
      ≠ (working (march_phase 1 [0] (sample_phase 1 [0] c2_state_bright))).data 576 := by
  refine ⟨by decide, by decide, by decide, by decide, ?_, rfl, by decide, by decide, by decide,
    by decide, by decide, by decide⟩
  intro z h0 h1
  show (if 0 ≤ z ∧ z < ((80 * 8 : Nat) : Int) then white else black)
    = (if 0 ≤ z ∧ z < ((80 * 8 : Nat) : Int) then white else white)
  rw [if_pos ⟨h0, h1⟩, if_pos ⟨h0, h1⟩]

end Tema1Par
